import Mathlib

/-!
# Verification of the parallel sprint planner

Shallow embedding of `src/src/agents/parallel_sprint_planner.py`
(class `ParallelSprintPlanningAgent`) and proofs of the specification
claims about it.

Modelling conventions:
* A Python `dict` (which preserves insertion order) is modelled as an
  association list; updating an existing key keeps its position, a new
  key is appended at the end (`insertUpd`).  `defaultdict(int)` and
  `defaultdict(list)` are modelled by lookups with defaults 0 / [].
* Python `float` arithmetic is modelled over `ℚ` (the claims concern
  the algebraic structure of the formulas, not IEEE rounding).
* Python `int(x)` (truncation toward zero) is `pyInt`; Python `//`
  (floor division) on integers is `Int.fdiv`.
* The two unbounded loops of the source (the Kahn `while queue` loop
  and the recursive critical-path DFS) are modelled with an explicit
  fuel argument; at every call site the fuel is a proved upper bound on
  the number of iterations, so the fueled function agrees with the
  unbounded loop.
-/

namespace SprintPlanner

/-- An input feature/task descriptor (one element of the `features: List[Dict]`
argument).  Fields the planner reads with `.get` and a default are `Option`s,
so that a missing key can be distinguished from a present one. -/
structure Feature where
  id : String
  complexity : Option String
  priority : Option String
  effort : Option ℚ
  dependencies : List String
deriving DecidableEq, Repr

/-- One value of `self.dependency_graph` (the dict built in
`analyze_features`).  The source also stores a feature back-reference,
which is never read anywhere; it is omitted. -/
structure GraphEntry where
  dependencies : List String
  complexity : String
  priority : String
  estimated_effort : ℚ
deriving DecidableEq, Repr

/-- `self.dependency_graph`: an insertion-ordered dict from feature id to
entry. -/
abbrev Graph := List (String × GraphEntry)

/-- Dict lookup. -/
def lookupG (g : Graph) (k : String) : Option GraphEntry :=
  (g.find? (fun p => p.1 = k)).map (fun p => p.2)

/-- The keys of the graph, in insertion order. -/
abbrev keysG (g : Graph) : List String := g.map Prod.fst

/-- Python-dict assignment `d[k] = v`: update in place if the key exists,
else append at the end. -/
def insertUpd (g : Graph) (k : String) (v : GraphEntry) : Graph :=
  match g with
  | [] => [(k, v)]
  | (k', v') :: rest =>
    if k' = k then (k', v) :: rest else (k', v') :: insertUpd rest k v

/-- The entry stored for one feature under `self.dependency_graph[feature_id]`:
the dependency list, `feature.get` of complexity (default medium), of
priority (default medium) and of effort (default 5). -/
def mkEntry (f : Feature) : GraphEntry :=
  { dependencies := f.dependencies
    complexity := f.complexity.getD "medium"
    priority := f.priority.getD "medium"
    estimated_effort := f.effort.getD 5 }

/-- The graph-building loop of `analyze_features`, starting from the current
`self.dependency_graph` state `g` (the attribute is never cleared between
runs). -/
def buildGraph (fs : List Feature) (g : Graph) : Graph :=
  fs.foldl (fun g f => insertUpd g f.id (mkEntry f)) g

/-- The dependency list the graph records for a task id ([] if absent). -/
def depsOf (g : Graph) (k : String) : List String :=
  ((lookupG g k).map (fun e => e.dependencies)).getD []

/-! ## `_find_critical_path` -/

/-- The `if len(subpath) > len(longest_subpath)` selection loop: keep the
first list strictly longer than everything before it. -/
def pickLonger (best : List String) (cands : List (List String)) : List String :=
  cands.foldl (fun best s => if s.length > best.length then s else best) best

/-- The recursive helper `dfs(node, visited, path)` of `_find_critical_path`
(its `path` argument is `[]` at every call site).  `visited.copy()` is passed
down, so each branch explores with `visited ∪ {node}`.  The recursion is
fueled; recursion depth is bounded by the number of unvisited graph keys, so
the fuel used at the call site (`keysG g |>.length + 1`) always suffices. -/
def dfsPath (g : Graph) : Nat → String → List String → List String
  | 0, _, _ => []
  | fuel + 1, node, visited =>
    if node ∈ visited then []
    else
      match lookupG g node with
      | none => [node]
      | some e =>
        node ::
          pickLonger []
            (e.dependencies.map (fun dep =>
              if dep ∈ node :: visited then []
              else dfsPath g fuel dep (node :: visited)))

/-- `_find_critical_path`: run the DFS from every node of the graph and keep
the first strictly-longest result. -/
def find_critical_path (g : Graph) : List String :=
  (keysG g).foldl
    (fun longest node =>
      let path := dfsPath g ((keysG g).length + 1) node []
      if path.length > longest.length then path else longest)
    []

/-! ## `analyze_features` -/

/-- The `analysis` dict returned by `analyze_features` (the
`dependency_graph` member is the planner state, returned separately). -/
structure Analysis where
  total_features : Nat
  independent_features : List String
  dependent_features : List String
  critical_path : List String
  parallelism_score : ℚ
deriving DecidableEq, Repr

/-- `analyze_features(features)`: build/extend `self.dependency_graph`,
collect independent (empty `dependencies`) and dependent feature ids, find
the critical path and the parallelism score.  Returns the analysis together
with the new `self.dependency_graph` state. -/
def analyze_features (fs : List Feature) (g0 : Graph) : Analysis × Graph :=
  let g := buildGraph fs g0
  let indep := (fs.filter (fun f => f.dependencies = [])).map (fun f => f.id)
  let dep := (fs.filter (fun f => ¬ f.dependencies = [])).map (fun f => f.id)
  ({ total_features := fs.length
     independent_features := indep
     dependent_features := dep
     critical_path := find_critical_path g
     parallelism_score :=
       if fs.length > 0 then (indep.length : ℚ) / (fs.length : ℚ) else 0 },
   g)

/-! ## `_topological_sort` (Kahn leveling) -/

/-- `in_degree`: a `defaultdict(int)` (missing key reads as 0). -/
abbrev DegMap := List (String × Int)

/-- `adjacency`: a `defaultdict(list)` (missing key reads as []). -/
abbrev AdjMap := List (String × List String)

/-- Read from the in-degree map with default 0. -/
def getInt (m : DegMap) (k : String) : Int :=
  ((m.find? (fun p => p.1 = k)).map (fun p => p.2)).getD 0

/-- `in_degree[k] += d` on a `defaultdict(int)`. -/
def bump (m : DegMap) (k : String) (d : Int) : DegMap :=
  match m with
  | [] => [(k, d)]
  | (k', v) :: rest =>
    if k' = k then (k', v + d) :: rest else (k', v) :: bump rest k d

/-- Read from the adjacency map with default []. -/
def getAdj (a : AdjMap) (k : String) : List String :=
  ((a.find? (fun p => p.1 = k)).map (fun p => p.2)).getD []

/-- `adjacency[k].append(v)` on a `defaultdict(list)`. -/
def pushAdj (a : AdjMap) (k : String) (v : String) : AdjMap :=
  match a with
  | [] => [(k, [v])]
  | (k', l) :: rest =>
    if k' = k then (k', l ++ [v]) :: rest else (k', l) :: pushAdj rest k v

/-- The body of the inner graph-scanning loop of `_topological_sort`:
`adjacency[dep].append(node); in_degree[node] += 1`. -/
def degStep (node : String) (st : DegMap × AdjMap) (dep : String) :
    DegMap × AdjMap :=
  (bump st.1 node 1, pushAdj st.2 dep node)

/-- The graph-scanning loop of `_topological_sort`:
`for node, data in graph.items(): for dep in dependencies: …`. -/
def buildDegAdj (g : Graph) : DegMap × AdjMap :=
  g.foldl (fun st p => p.2.dependencies.foldl (degStep p.1) st) ([], [])

/-- One decrement of the inner Kahn loop: `in_degree[neighbor] -= 1; if
in_degree[neighbor] == 0: queue.append(neighbor)`.  The state is the
in-degree map together with the list of newly enqueued nodes. -/
def decrStep (st : DegMap × List String) (neighbor : String) :
    DegMap × List String :=
  let m := bump st.1 neighbor (-1)
  if getInt m neighbor = 0 then (m, st.2 ++ [neighbor]) else (m, st.2)

/-- Processing one whole level: every node of the current queue snapshot is
popped (in order); for each, all of its adjacency targets are decremented.
Returns the new in-degree map and the next queue. -/
def processLevel (adj : AdjMap) (st : DegMap × List String)
    (frontier : List String) : DegMap × List String :=
  frontier.foldl (fun st node => (getAdj adj node).foldl decrStep st) st

/-- The sum of the positive in-degrees; together with the frontier length it
bounds the number of remaining `while queue` iterations. -/
def posSumNat (m : DegMap) : Nat := (m.map (fun p => p.2.toNat)).sum

/-- The `while queue:` loop of `_topological_sort`, one iteration per level.
Fueled; each iteration strictly decreases `frontier.length + posSumNat m`
(proved below), so the fuel chosen in `topological_sort` always suffices and
the function computes exactly what the unbounded loop does. -/
def kahnFuel (adj : AdjMap) : Nat → DegMap → List String → List (List String)
  | 0, _, _ => []
  | fuel + 1, m, frontier =>
    if frontier = [] then []
    else
      let st := processLevel adj (m, []) frontier
      frontier :: kahnFuel adj fuel st.1 st.2

/-- `_topological_sort()`: build in-degrees and adjacency, seed the queue
with the zero-in-degree graph nodes, then peel levels. -/
def topological_sort (g : Graph) : List (List String) :=
  let da := buildDegAdj g
  let seeds := (keysG g).filter (fun k => getInt da.1 k = 0)
  kahnFuel da.2 (seeds.length + posSumNat da.1 + 1) da.1 seeds

/-! ## `_group_into_tracks` -/

/-- One track dict. -/
structure Track where
  id : String
  type : String
  features : List String
  level : Nat
  can_parallel : Bool
deriving DecidableEq, Repr

/-- `_group_into_tracks(sorted_features)`: one track per level; a singleton
level becomes a sequential track, otherwise a parallel track. -/
def group_into_tracks (sorted_features : List (List String)) : List Track :=
  sorted_features.enum.map (fun p =>
    let level_idx := p.1
    let level := p.2
    if level.length = 1 then
      { id := "track_seq_" ++ toString level_idx
        type := "sequential"
        features := level
        level := level_idx
        can_parallel := false }
    else
      { id := "track_par_" ++ toString level_idx
        type := "parallel"
        features := level
        level := level_idx
        can_parallel := true })

/-! ## `_allocate_resources` -/

/-- The complexity weight table lookup: low 1, medium 2, high 3, with
`.get` default 2 for anything else. -/
def weightOf (c : String) : ℚ :=
  if c = "low" then 1 else if c = "medium" then 2 else if c = "high" then 3 else 2

/-- The priority multiplier table lookup: low 0.8, medium 1.0, high 1.5,
with `.get` default 1.0 for anything else. -/
def priorityMultOf (p : String) : ℚ :=
  if p = "low" then 8/10 else if p = "medium" then 1 else if p = "high" then 3/2 else 1

/-- The weighted complexity of one track:
`track_complexity += weight * priority_mult` over the member features present
in the dependency graph. -/
def trackComplexity (g : Graph) (t : Track) : ℚ :=
  t.features.foldl
    (fun acc fid =>
      match lookupG g fid with
      | some e => acc + weightOf e.complexity * priorityMultOf e.priority
      | none => acc)
    0

/-- Python `int(x)` on a nonnegative-or-negative rational: truncation toward
zero (`num / den` in T-division; `Rat` keeps `den > 0`). -/
def pyInt (q : ℚ) : Int := q.num / (q.den : Int)

/-- One allocation record (`allocation[track_id]`). -/
structure Alloc where
  complexity : ℚ
  features : List String
  processes : Int
  teams : Int
deriving DecidableEq, Repr

/-- `self.agents_per_team` (fixed at 16 in `__init__`). -/
def agents_per_team : Int := 16

/-- `_allocate_resources(tracks)` with `self.max_processes = maxProcesses`:
proportional shares of `max_processes - 100`, a one-team minimum, rounded
down to whole teams.  The two Python loops (first compute complexities and
the total, then fill in processes/teams) are fused per track; this is sound
because the second loop reads only the per-track complexity and the total. -/
def allocate_resources (maxProcesses : Int) (g : Graph) (tracks : List Track) :
    List (String × Alloc) :=
  let total_complexity := (tracks.map (fun t => trackComplexity g t)).sum
  let available_processes : Int := maxProcesses - 100
  tracks.map (fun t =>
    let c := trackComplexity g t
    let process_count : Int :=
      if total_complexity > 0 then
        let raw := pyInt (c / total_complexity * (available_processes : ℚ))
        let atLeast := max raw agents_per_team
        (Int.fdiv atLeast agents_per_team) * agents_per_team
      else agents_per_team
    (t.id,
     { complexity := c
       features := t.features
       processes := process_count
       teams := Int.fdiv process_count agents_per_team }))

/-- Dict lookup in the allocation. -/
def lookupAlloc (al : List (String × Alloc)) (k : String) : Option Alloc :=
  (al.find? (fun p => p.1 = k)).map (fun p => p.2)

/-! ## Duration estimation and the execution plan -/

/-- `_estimate_track_duration(track, allocation)` where the relevant content
of the `allocation` dict argument is its teams entry (`.get` default 1):
`(Σ effort * 5) / teams`, times 1.1 for parallel tracks. -/
def estimate_track_duration (g : Graph) (t : Track) (teams : Int) : ℚ :=
  let total_effort : ℚ :=
    t.features.foldl
      (fun acc fid =>
        match lookupG g fid with
        | some e => acc + e.estimated_effort
        | none => acc)
      0
  let base_time := total_effort * 5 / (teams : ℚ)
  let overhead : ℚ := if t.can_parallel then 11/10 else 1
  base_time * overhead

/-- One execution-plan step. -/
structure PlanStep where
  step : Nat
  track_id : String
  type : String
  features : List String
  teams : Int
  processes : Int
  start_time : ℚ
  duration : ℚ
  can_parallel : Bool
deriving DecidableEq, Repr

/-- One iteration of the `_create_execution_plan` loop.  The state is the
plan built so far together with `current_time`. -/
def execStep (g : Graph) (allocation : List (String × Alloc))
    (st : List PlanStep × ℚ) (track : Track) : List PlanStep × ℚ :=
  let track_allocation := lookupAlloc allocation track.id
  let teams := (track_allocation.map (fun a => a.teams)).getD 1
  let processes := (track_allocation.map (fun a => a.processes)).getD agents_per_team
  let duration := estimate_track_duration g track teams
  let step : PlanStep :=
    { step := st.1.length + 1
      track_id := track.id
      type := track.type
      features := track.features
      teams := teams
      processes := processes
      start_time := st.2
      duration := duration
      can_parallel := track.can_parallel }
  (st.1 ++ [step], if ¬ track.can_parallel then st.2 + duration else st.2)

/-- `_create_execution_plan(tracks, allocation)`: walk the tracks, stamping
`start_time = current_time`; only sequential tracks advance `current_time`. -/
def create_execution_plan (g : Graph) (tracks : List Track)
    (allocation : List (String × Alloc)) : List PlanStep :=
  (tracks.foldl (execStep g allocation) ([], 0)).1

/-- `_estimate_duration(tracks)`.  NOTE: the source reads
`self.resource_allocation.get` with default dict of teams 1, but
`self.resource_allocation` is assigned only in `__init__` (to the empty
dict) and never written afterwards, so the lookup always falls back to the
default: every track is costed with one team here. -/
def estimate_duration (g : Graph) (tracks : List Track) : ℚ :=
  let st := tracks.foldl
    (fun (st : ℚ × ℚ) track =>
      let track_duration := estimate_track_duration g track 1
      if track.can_parallel then (st.1, max st.2 track_duration)
      else (st.1 + track_duration, st.2))
    (0, 0)
  st.1 + st.2

/-! ## `create_parallel_tracks` -/

/-- The result dict of `create_parallel_tracks` (the
`optimization_suggestions` list of advisory strings is omitted: no claim
concerns it). -/
structure PlanResult where
  analysis : Analysis
  tracks : List Track
  resource_allocation : List (String × Alloc)
  execution_plan : List PlanStep
  estimated_duration : ℚ
deriving DecidableEq, Repr

/-- `create_parallel_tracks(features)` on a planner whose
`self.max_processes` is `maxProcesses` and whose `self.dependency_graph`
state is `g0`.  Returns the result dict and the new planner graph state. -/
def create_parallel_tracks (maxProcesses : Int) (fs : List Feature)
    (g0 : Graph) : PlanResult × Graph :=
  let ag := analyze_features fs g0
  let g := ag.2
  let sorted_features := topological_sort g
  let tracks := group_into_tracks sorted_features
  let allocation := allocate_resources maxProcesses g tracks
  ({ analysis := ag.1
     tracks := tracks
     resource_allocation := allocation
     execution_plan := create_execution_plan g tracks allocation
     estimated_duration := estimate_duration g tracks },
   g)

/-! ## Specification-side notions used by the claims -/

/-- A direct dependency edge: task `a` lists `b` among its dependencies. -/
def Edge (g : Graph) (a b : String) : Prop :=
  ∃ e, lookupG g a = some e ∧ b ∈ e.dependencies

/-- A dependency chain in the graph: a nonempty task-id sequence starting at
a graph node in which every consecutive pair is a direct dependency edge. -/
def IsChain (g : Graph) (l : List String) : Prop :=
  l ≠ [] ∧ l.headD "" ∈ keysG g ∧ List.Chain' (Edge g) l

/-- `rank` certifies acyclicity: it strictly decreases along dependency
edges. -/
def RankOk (g : Graph) (rank : String → Nat) : Prop :=
  ∀ p ∈ g, ∀ d ∈ p.2.dependencies, rank d < rank p.1

/-- The dependency graph is acyclic (finite graphs admit such a rank exactly
when no dependency cycle exists). -/
def Acyclic (g : Graph) : Prop := ∃ rank, RankOk g rank

/-- Every referenced dependency id exists in the task set. -/
def Closed (g : Graph) : Prop :=
  ∀ p ∈ g, ∀ d ∈ p.2.dependencies, d ∈ keysG g

/-- The number of dependencies of `k` not yet processed (not in `P`),
counted with multiplicity; the semantic counterpart of the in-degree map. -/
def rdeg (g : Graph) (k : String) (P : List String) : Nat :=
  ((depsOf g k).filter (fun d => d ∉ P)).length

/-- The loop invariant of the Kahn leveling, relating the emitted prefix `P`
(concatenation of the levels produced so far), the current frontier `F` and
the in-degree map `m`. -/
structure KahnInv (g : Graph) (P F : List String) (m : DegMap) : Prop where
  nodup : (P ++ F).Nodup
  sub : ∀ k ∈ P ++ F, k ∈ keysG g
  count_eq : ∀ k ∈ keysG g, getInt m k = (rdeg g k P : Int)
  outside : ∀ k, k ∉ keysG g → getInt m k ≤ 0
  emitted : ∀ k ∈ P ++ F, rdeg g k P = 0
  complete : ∀ k ∈ keysG g, k ∉ P ++ F → 0 < rdeg g k P

/-- The total in-degree contribution recorded for key `k` by the scanning
loop: the summed dependency counts of the entries keyed `k`. -/
def degSum (g : Graph) (k : String) : Nat :=
  ((g.filter (fun p => p.1 = k)).map (fun p => p.2.dependencies.length)).sum

/-- The number of occurrences of `k` in the adjacency list of `d`: once per
occurrence of `d` among the dependencies of an entry keyed `k`. -/
def adjCount (g : Graph) (d k : String) : Nat :=
  ((g.filter (fun p => p.1 = k)).map (fun p => p.2.dependencies.count d)).sum

/-- Cumulative duration of the sequential steps of a plan prefix. -/
def seqDurationSum (l : List PlanStep) : ℚ :=
  ((l.filter (fun s => !s.can_parallel)).map (fun s => s.duration)).sum

/-- A placeholder step used only as the default of `List.getD`. -/
def dummyStep : PlanStep :=
  { step := 0, track_id := "", type := "", features := [], teams := 0
    processes := 0, start_time := 0, duration := 0, can_parallel := false }

/-- The per-key effect of the graph-building loop: the last matching feature
wins, otherwise the initial value is kept. -/
def lastEntryAux : List Feature → String → Option GraphEntry → Option GraphEntry
  | [], _, init => init
  | f :: fs, k, init =>
    lastEntryAux fs k (if f.id = k then some (mkEntry f) else init)

/-! ## Concrete inputs used by counterexamples and witnesses -/

/-- A small acyclic, closed task set: b depends on a, c on a and b. -/
def acyclicSample : List Feature :=
  [ { id := "a", complexity := none, priority := none, effort := none, dependencies := [] },
    { id := "b", complexity := none, priority := none, effort := none, dependencies := ["a"] },
    { id := "c", complexity := none, priority := none, effort := none, dependencies := ["a", "b"] } ]

/-- A rank witness for `acyclicSample`. -/
def acyclicSampleRank (s : String) : Nat :=
  if s = "b" then 1 else if s = "c" then 2 else 0

/-- The two-task dependency cycle of claim C2: A depends on B and B on A. -/
def cycleFeatures : List Feature :=
  [ { id := "A", complexity := none, priority := none, effort := none, dependencies := ["B"] },
    { id := "B", complexity := none, priority := none, effort := none, dependencies := ["A"] } ]

/-- The task set of claim C3: task t references a dependency id that does
not exist in the task set. -/
def ghostFeatures : List Feature :=
  [ { id := "t", complexity := none, priority := none, effort := none, dependencies := ["ghost"] } ]

/-- The task set of claim C4: a two-level chain, so that two tracks each
receive the one-team minimum. -/
def overcommitFeatures : List Feature :=
  [ { id := "a", complexity := none, priority := none, effort := none, dependencies := [] },
    { id := "b", complexity := none, priority := none, effort := none, dependencies := ["a"] } ]

/-- The task set of claim C7: two independent tasks of effort 5, forming one
parallel track. -/
def twoParFeatures : List Feature :=
  [ { id := "a", complexity := none, priority := none, effort := some 5, dependencies := [] },
    { id := "b", complexity := none, priority := none, effort := some 5, dependencies := [] } ]

/-- The dependency graph of the C8 witness run. -/
def c8Graph : Graph :=
  buildGraph
    [ { id := "a", complexity := none, priority := none, effort := some 4, dependencies := [] },
      { id := "b", complexity := none, priority := none, effort := some 6, dependencies := ["a"] } ]
    []

/-- The tracks of the C8 witness run. -/
def c8Tracks : List Track := group_into_tracks (topological_sort c8Graph)

/-- The allocation of the C8 witness run. -/
def c8Allocation : List (String × Alloc) := allocate_resources 1000 c8Graph c8Tracks

/-- The feature of the C10 witness: unrecognized complexity and priority
strings, missing effort. -/
def oddFeature : Feature :=
  { id := "x", complexity := some "weird", priority := some "odd"
    effort := none, dependencies := [] }

/-! # Theorems -/

/-! ## C6: parallelism score -/

/-- **C6.** For every task set, the reported `parallelism_score` equals the
number of tasks with no dependencies divided by the total number of tasks,
lies in `[0,1]`, and is reported as 0 for the empty task set. -/
theorem claim_C6_parallelism_score (fs : List Feature) (g0 : Graph) :
    ((analyze_features fs g0).1.parallelism_score
      = if fs.length = 0 then 0
        else ((analyze_features fs g0).1.independent_features.length : ℚ) / (fs.length : ℚ))
    ∧ 0 ≤ (analyze_features fs g0).1.parallelism_score
    ∧ (analyze_features fs g0).1.parallelism_score ≤ 1 := by
  have hle : ((fs.filter (fun f => f.dependencies = [])).map (fun f => f.id)).length
      ≤ fs.length := by
    simpa using List.length_filter_le _ fs
  by_cases h : fs.length = 0
  · simp [analyze_features, h]
  · have hpos : 0 < fs.length := Nat.pos_of_ne_zero h
    have hq : (0 : ℚ) < (fs.length : ℚ) := by exact_mod_cast hpos
    refine ⟨by simp [analyze_features, h, hpos], ?_, ?_⟩
    · simp only [analyze_features, if_pos hpos]
      positivity
    · simp only [analyze_features, if_pos hpos]
      rw [div_le_one hq]
      exact_mod_cast hle

/-! ## C10: lenient defaults for missing or unrecognized fields -/

/-- **C10.** A feature with a missing or unrecognized complexity, a missing
or unrecognized priority, and a missing effort is accepted without failure:
the graph entry built for it carries complexity weight 2 (the medium
weight), priority multiplier 1.0 (the medium multiplier) and effort 5, the
values used by analysis, allocation and duration estimation. -/
theorem claim_C10_lenient_defaults (f : Feature)
    (hc : ∀ c, f.complexity = some c → c ≠ "low" ∧ c ≠ "medium" ∧ c ≠ "high")
    (hp : ∀ p, f.priority = some p → p ≠ "low" ∧ p ≠ "medium" ∧ p ≠ "high")
    (he : f.effort = none) :
    lookupG (buildGraph [f] []) f.id = some (mkEntry f)
    ∧ weightOf (mkEntry f).complexity = 2
    ∧ priorityMultOf (mkEntry f).priority = 1
    ∧ (mkEntry f).estimated_effort = 5 := by
  refine ⟨by simp [buildGraph, insertUpd, lookupG], ?_, ?_, ?_⟩
  · cases hcf : f.complexity with
    | none => simp [mkEntry, hcf, weightOf]
    | some c =>
      obtain ⟨h1, h2, h3⟩ := hc c hcf
      simp [mkEntry, hcf, weightOf, h1, h2, h3]
  · cases hpf : f.priority with
    | none => simp [mkEntry, hpf, priorityMultOf]
    | some p =>
      obtain ⟨h1, h2, h3⟩ := hp p hpf
      simp [mkEntry, hpf, priorityMultOf, h1, h2, h3]
  · simp [mkEntry, he]

/-- Witness for C10 at a concrete feature with garbage fields. -/
theorem claim_C10_witness :
    lookupG (buildGraph [oddFeature] []) oddFeature.id = some (mkEntry oddFeature)
    ∧ weightOf (mkEntry oddFeature).complexity = 2
    ∧ priorityMultOf (mkEntry oddFeature).priority = 1
    ∧ (mkEntry oddFeature).estimated_effort = 5 :=
  claim_C10_lenient_defaults oddFeature
    (by intro c h; simp [oddFeature] at h; subst h; exact ⟨by decide, by decide, by decide⟩)
    (by intro p h; simp [oddFeature] at h; subst h; exact ⟨by decide, by decide, by decide⟩)
    rfl

/-! ## C8: execution-plan start times -/

/-- Sum of sequential durations over a singleton append. -/
theorem seqDurationSum_append_single (l : List PlanStep) (s : PlanStep) :
    seqDurationSum (l ++ [s])
      = seqDurationSum l + (if s.can_parallel then 0 else s.duration) := by
  cases h : s.can_parallel <;>
    simp [seqDurationSum, List.filter_append, h]

/-- The `_create_execution_plan` fold invariant: the running clock equals
the cumulative sequential duration of the plan built so far, and every
emitted step was stamped with the cumulative sequential duration of the
steps before it. -/
theorem execStep_fold_invariant (g : Graph) (allocation : List (String × Alloc))
    (tracks : List Track) :
    ∀ st : List PlanStep × ℚ,
      st.2 = seqDurationSum st.1 →
      (∀ i, i < st.1.length →
        (st.1.getD i dummyStep).start_time = seqDurationSum (st.1.take i)) →
      (tracks.foldl (execStep g allocation) st).2
          = seqDurationSum (tracks.foldl (execStep g allocation) st).1
      ∧ ∀ i, i < (tracks.foldl (execStep g allocation) st).1.length →
          ((tracks.foldl (execStep g allocation) st).1.getD i dummyStep).start_time
            = seqDurationSum ((tracks.foldl (execStep g allocation) st).1.take i) := by
  induction tracks with
  | nil => intro st h1 h2; exact ⟨h1, h2⟩
  | cons track rest ih =>
    intro st h1 h2
    simp only [List.foldl_cons]
    apply ih
    · cases hpar : track.can_parallel <;>
        simp [execStep, seqDurationSum_append_single, hpar, h1]
    · intro i hi
      simp only [execStep, List.length_append, List.length_cons,
        List.length_nil] at hi ⊢
      rcases Nat.lt_or_ge i st.1.length with hlt | hge
      · rw [List.getD_append _ _ _ _ hlt, List.take_append_of_le_length hlt.le]
        exact h2 i hlt
      · have hieq : i = st.1.length := by omega
        subst hieq
        rw [List.take_left, List.getD_append_right _ _ _ _ le_rfl]
        simp [h1]

/-- **C8.** Every execution-plan step is stamped with a start time equal to
the cumulative duration of the sequential tracks before it; parallel tracks
do not advance the clock. -/
theorem claim_C8_start_times (g : Graph) (tracks : List Track)
    (allocation : List (String × Alloc)) (i : Nat)
    (hi : i < (create_execution_plan g tracks allocation).length) :
    ((create_execution_plan g tracks allocation).getD i dummyStep).start_time
      = seqDurationSum ((create_execution_plan g tracks allocation).take i) := by
  have h := execStep_fold_invariant g allocation tracks ([], 0)
    (by simp [seqDurationSum]) (by intro i hi; simp at hi)
  exact h.2 i hi

/-- Witness for C8 on a concrete two-track plan. -/
theorem claim_C8_witness :
    1 < (create_execution_plan c8Graph c8Tracks c8Allocation).length
    ∧ ((create_execution_plan c8Graph c8Tracks c8Allocation).getD 1 dummyStep).start_time
        = seqDurationSum ((create_execution_plan c8Graph c8Tracks c8Allocation).take 1) := by
  have hlen : (create_execution_plan c8Graph c8Tracks c8Allocation).length = 2 := by
    with_unfolding_all rfl
  exact ⟨by omega, claim_C8_start_times c8Graph c8Tracks c8Allocation 1 (by omega)⟩

/-! ## C9: idempotence of re-planning on the same instance -/

/-- Keys after a dict assignment: unchanged if the key exists, else the key
is appended. -/
theorem keysG_insertUpd (g : Graph) (k : String) (v : GraphEntry) :
    keysG (insertUpd g k v)
      = if k ∈ keysG g then keysG g else keysG g ++ [k] := by
  induction g with
  | nil => simp [insertUpd]
  | cons p rest ih =>
    obtain ⟨k', v'⟩ := p
    by_cases h : k' = k
    · subst h
      simp [insertUpd]
    · simp only [insertUpd, if_neg h, List.map_cons, ih]
      by_cases h2 : k ∈ keysG rest
      · rw [if_pos h2, if_pos (by exact List.mem_cons_of_mem _ h2)]
      · rw [if_neg h2,
          if_neg (by
            simp only [List.mem_cons]
            push_neg
            exact ⟨fun hh => h hh.symm, h2⟩),
          List.cons_append]

/-- The assigned key is present afterwards. -/
theorem mem_keysG_insertUpd (g : Graph) (k : String) (v : GraphEntry) :
    k ∈ keysG (insertUpd g k v) := by
  rw [keysG_insertUpd]
  by_cases h : k ∈ keysG g <;> simp [h]

/-- Existing keys survive a dict assignment. -/
theorem mem_keysG_insertUpd_of_mem {g : Graph} {x : String} (k : String)
    (v : GraphEntry) (h : x ∈ keysG g) : x ∈ keysG (insertUpd g k v) := by
  rw [keysG_insertUpd]
  by_cases h2 : k ∈ keysG g <;> simp [h2, h]

/-- Assigning an existing key leaves the key list unchanged. -/
theorem keysG_insertUpd_of_mem {g : Graph} {k : String} (v : GraphEntry)
    (h : k ∈ keysG g) : keysG (insertUpd g k v) = keysG g := by
  rw [keysG_insertUpd, if_pos h]

/-- A dict assignment preserves distinctness of keys. -/
theorem nodup_keysG_insertUpd {g : Graph} (k : String) (v : GraphEntry)
    (h : (keysG g).Nodup) : (keysG (insertUpd g k v)).Nodup := by
  rw [keysG_insertUpd]
  by_cases h2 : k ∈ keysG g
  · rwa [if_pos h2]
  · rw [if_neg h2]
    simp [List.nodup_append, h, h2]

/-- Head lookup. -/
theorem lookupG_cons_self (k : String) (v : GraphEntry) (rest : Graph) :
    lookupG ((k, v) :: rest) k = some v := by
  rw [lookupG, List.find?_cons_of_pos _ (by simp)]
  rfl

/-- Skipping a non-matching head. -/
theorem lookupG_cons_ne {x k : String} (v : GraphEntry) (rest : Graph)
    (h : ¬ (k = x)) : lookupG ((k, v) :: rest) x = lookupG rest x := by
  rw [lookupG, List.find?_cons_of_neg _ (by simp [h]), lookupG]

/-- Lookup after a dict assignment. -/
theorem lookupG_insertUpd (g : Graph) (k : String) (v : GraphEntry)
    (x : String) :
    lookupG (insertUpd g k v) x = if x = k then some v else lookupG g x := by
  induction g with
  | nil =>
    by_cases h : x = k
    · subst h
      rw [if_pos rfl]
      exact lookupG_cons_self x v []
    · rw [if_neg h, show insertUpd [] k v = [(k, v)] from rfl,
        lookupG_cons_ne v [] (fun hh => h hh.symm)]
  | cons p rest ih =>
    obtain ⟨k', v'⟩ := p
    by_cases h : k' = k
    · subst h
      rw [show insertUpd ((k', v') :: rest) k' v = (k', v) :: rest from by
        simp [insertUpd]]
      by_cases h2 : x = k'
      · subst h2
        rw [if_pos rfl, lookupG_cons_self]
      · rw [if_neg h2, lookupG_cons_ne v rest (fun hh => h2 hh.symm),
          lookupG_cons_ne v' rest (fun hh => h2 hh.symm)]
    · rw [show insertUpd ((k', v') :: rest) k v
          = (k', v') :: insertUpd rest k v from by simp [insertUpd, h]]
      by_cases h2 : x = k'
      · subst h2
        rw [lookupG_cons_self, if_neg h, lookupG_cons_self]
      · rw [lookupG_cons_ne v' _ (fun hh => h2 hh.symm), ih,
          lookupG_cons_ne v' rest (fun hh => h2 hh.symm)]

/-- Unfolding lemma for the build loop. -/
theorem buildGraph_cons (f : Feature) (fs : List Feature) (g : Graph) :
    buildGraph (f :: fs) g = buildGraph fs (insertUpd g f.id (mkEntry f)) := rfl

/-- Existing keys survive the build loop. -/
theorem mem_keysG_buildGraph_of_mem {g : Graph} {x : String}
    (fs : List Feature) (h : x ∈ keysG g) : x ∈ keysG (buildGraph fs g) := by
  induction fs generalizing g with
  | nil => exact h
  | cons f fs ih => exact ih (mem_keysG_insertUpd_of_mem f.id (mkEntry f) h)

/-- Every processed feature id is a key of the built graph. -/
theorem mem_keysG_buildGraph_of_mem_fs {fs : List Feature} {f : Feature}
    (g : Graph) (h : f ∈ fs) : f.id ∈ keysG (buildGraph fs g) := by
  induction fs generalizing g with
  | nil => cases h
  | cons f0 fs ih =>
    rcases List.mem_cons.mp h with rfl | h0
    · exact mem_keysG_buildGraph_of_mem fs
        (mem_keysG_insertUpd g f.id (mkEntry f))
    · exact ih _ h0

/-- If every feature id is already a key, the build loop only updates values
and the key list is unchanged. -/
theorem keysG_buildGraph_of_forall_mem {fs : List Feature} {g : Graph}
    (h : ∀ f ∈ fs, f.id ∈ keysG g) : keysG (buildGraph fs g) = keysG g := by
  induction fs generalizing g with
  | nil => rfl
  | cons f0 fs ih =>
    have h0 : f0.id ∈ keysG g := h f0 (List.mem_cons_self _ _)
    have hrest : ∀ f ∈ fs, f.id ∈ keysG (insertUpd g f0.id (mkEntry f0)) := by
      intro f hf
      rw [keysG_insertUpd_of_mem _ h0]
      exact h f (List.mem_cons_of_mem _ hf)
    rw [buildGraph_cons, ih hrest, keysG_insertUpd_of_mem _ h0]

/-- The build loop preserves distinctness of keys. -/
theorem nodup_keysG_buildGraph (fs : List Feature) {g : Graph}
    (h : (keysG g).Nodup) : (keysG (buildGraph fs g)).Nodup := by
  induction fs generalizing g with
  | nil => exact h
  | cons f fs ih => exact ih (nodup_keysG_insertUpd f.id (mkEntry f) h)

/-- Per-key description of the build loop: the last matching feature wins,
otherwise the previous binding is kept. -/
theorem lookupG_buildGraph (fs : List Feature) (g : Graph) (k : String) :
    lookupG (buildGraph fs g) k = lastEntryAux fs k (lookupG g k) := by
  induction fs generalizing g with
  | nil => rfl
  | cons f fs ih =>
    rw [buildGraph_cons, ih, lastEntryAux]
    congr 1
    rw [lookupG_insertUpd]
    by_cases h : f.id = k
    · rw [if_pos h, if_pos h.symm]
    · rw [if_neg h, if_neg (fun hh => h hh.symm)]

/-- `lastEntryAux fs k` is either a constant function (some feature of `fs`
has id `k`) or the identity. -/
theorem lastEntryAux_const_or_id (fs : List Feature) (k : String) :
    (∃ c, ∀ j, lastEntryAux fs k j = some c)
      ∨ (∀ j, lastEntryAux fs k j = j) := by
  induction fs with
  | nil => exact Or.inr (fun j => rfl)
  | cons f fs ih =>
    by_cases h : f.id = k
    · rcases ih with ⟨c, hc⟩ | hid
      · exact Or.inl ⟨c, fun j => by rw [lastEntryAux, if_pos h, hc]⟩
      · exact Or.inl ⟨mkEntry f, fun j => by rw [lastEntryAux, if_pos h, hid]⟩
    · rcases ih with ⟨c, hc⟩ | hid
      · exact Or.inl ⟨c, fun j => by rw [lastEntryAux, if_neg h, hc]⟩
      · exact Or.inr (fun j => by rw [lastEntryAux, if_neg h, hid])

/-- A key that is absent looks up to none. -/
theorem lookupG_eq_none_of_not_mem {g : Graph} {k : String}
    (h : k ∉ keysG g) : lookupG g k = none := by
  induction g with
  | nil => rfl
  | cons p rest ih =>
    simp only [keysG, List.map_cons, List.mem_cons] at h
    push_neg at h
    have hne : ¬ (p.1 = k) := fun h2 => h.1 h2.symm
    simp only [lookupG, List.find?]
    rw [show (decide (p.1 = k)) = false by simpa using hne]
    exact ih (by simpa [keysG] using h.2)

/-- Two insertion-ordered dicts with the same key sequence, distinct keys
and the same lookups are equal. -/
theorem graph_ext (g₁ : Graph) : ∀ (g₂ : Graph),
    keysG g₁ = keysG g₂ → (keysG g₁).Nodup →
    (∀ k, lookupG g₁ k = lookupG g₂ k) → g₁ = g₂ := by
  induction g₁ with
  | nil =>
    intro g₂ hk _ _
    cases g₂ with
    | nil => rfl
    | cons q rest₂ => simp [keysG] at hk
  | cons p rest ih =>
    intro g₂ hk hnd hl
    cases g₂ with
    | nil => simp [keysG] at hk
    | cons q rest₂ =>
      obtain ⟨k1, v1⟩ := p
      obtain ⟨k2, v2⟩ := q
      simp only [keysG, List.map_cons, List.cons.injEq] at hk
      obtain ⟨hk12, hkr⟩ := hk
      subst hk12
      simp only [keysG, List.map_cons, List.nodup_cons] at hnd
      have hv : some v1 = some v2 := by
        have h1 := lookupG_cons_self k1 v1 rest
        have h2 := lookupG_cons_self k1 v2 rest₂
        rw [← h1, ← h2, hl k1]
      injection hv with hv
      subst hv
      congr 1
      have hkr2 : keysG rest = keysG rest₂ := hkr
      have hnm2 : k1 ∉ keysG rest₂ := by
        rw [← hkr2]
        exact hnd.1
      refine ih rest₂ hkr2 hnd.2 (fun k => ?_)
      by_cases hkk : k1 = k
      · subst hkk
        rw [lookupG_eq_none_of_not_mem hnd.1,
          lookupG_eq_none_of_not_mem hnm2]
      · have := hl k
        rwa [lookupG_cons_ne v1 rest hkk, lookupG_cons_ne v1 rest₂ hkk] at this

/-- Re-running the build loop over a graph that already contains all its
features changes nothing: every key is present with its final value, so the
second pass rewrites each binding to the value it already has. -/
theorem buildGraph_idem (fs : List Feature) (g : Graph)
    (h : (keysG g).Nodup) :
    buildGraph fs (buildGraph fs g) = buildGraph fs g := by
  refine graph_ext _ _
    (keysG_buildGraph_of_forall_mem
      (fun f hf => mem_keysG_buildGraph_of_mem_fs g hf))
    (nodup_keysG_buildGraph fs (nodup_keysG_buildGraph fs h))
    (fun k => ?_)
  rw [lookupG_buildGraph, lookupG_buildGraph]
  rcases lastEntryAux_const_or_id fs k with ⟨c, hc⟩ | hid
  · rw [hc, hc]
  · rw [hid, hid]

/-- **C9.** Re-running the planner on the same task set, on the same
instance (same `max_processes`, with the `self.dependency_graph` state left
over from the first run), returns an identical result — identical levels,
tracks, critical path, allocation and durations — and an identical graph
state. -/
theorem claim_C9_idempotent (maxProcesses : Int) (fs : List Feature) :
    create_parallel_tracks maxProcesses fs
        (create_parallel_tracks maxProcesses fs []).2
      = create_parallel_tracks maxProcesses fs [] := by
  have hidem : buildGraph fs (buildGraph fs []) = buildGraph fs [] :=
    buildGraph_idem fs [] (by simp [keysG])
  have hg : (create_parallel_tracks maxProcesses fs []).2 = buildGraph fs [] := rfl
  rw [hg]
  simp only [create_parallel_tracks, analyze_features]
  rw [hidem]

/-! ## C5: the critical path is a longest dependency chain -/

/-- Unfolding the selection loop by one candidate. -/
theorem pickLonger_cons (best c : List String) (cands : List (List String)) :
    pickLonger best (c :: cands)
      = pickLonger (if c.length > best.length then c else best) cands := rfl

/-- The selection loop never returns something shorter than its
accumulator. -/
theorem pickLonger_ge_init (cands : List (List String)) :
    ∀ best : List String, best.length ≤ (pickLonger best cands).length := by
  induction cands with
  | nil => intro best; exact le_rfl
  | cons c cands ih =>
    intro best
    rw [pickLonger_cons]
    by_cases h : c.length > best.length
    · rw [if_pos h]
      exact le_trans (le_of_lt h) (ih c)
    · rw [if_neg h]
      exact ih best

/-- The selection loop never returns something shorter than a candidate. -/
theorem pickLonger_ge_mem (cands : List (List String)) :
    ∀ (best c : List String), c ∈ cands →
      c.length ≤ (pickLonger best cands).length := by
  induction cands with
  | nil => intro best c h; cases h
  | cons c0 cands ih =>
    intro best c h
    rw [pickLonger_cons]
    rcases List.mem_cons.mp h with rfl | h0
    · by_cases h2 : c.length > best.length
      · rw [if_pos h2]
        exact pickLonger_ge_init cands c
      · rw [if_neg h2]
        exact le_trans (le_of_not_lt h2) (pickLonger_ge_init cands best)
    · by_cases h2 : c0.length > best.length
      · rw [if_pos h2]
        exact ih _ c h0
      · rw [if_neg h2]
        exact ih _ c h0

/-- The selection loop returns its accumulator or one of the candidates. -/
theorem pickLonger_eq_init_or_mem (cands : List (List String)) :
    ∀ best : List String,
      pickLonger best cands = best ∨ pickLonger best cands ∈ cands := by
  induction cands with
  | nil => intro best; exact Or.inl rfl
  | cons c0 cands ih =>
    intro best
    rw [pickLonger_cons]
    by_cases h : c0.length > best.length
    · rw [if_pos h]
      rcases ih c0 with h2 | h2
      · rw [h2]
        exact Or.inr (List.mem_cons_self _ _)
      · exact Or.inr (List.mem_cons_of_mem _ h2)
    · rw [if_neg h]
      rcases ih best with h2 | h2
      · exact Or.inl h2
      · exact Or.inr (List.mem_cons_of_mem _ h2)

/-- Filtering with a stronger predicate yields at most as many elements. -/
theorem length_filter_le_of_imp (l : List String) (p q : String → Bool)
    (h : ∀ a, q a = true → p a = true) :
    (l.filter q).length ≤ (l.filter p).length := by
  induction l with
  | nil => exact le_rfl
  | cons a l ih =>
    cases hq : q a
    · cases hp : p a <;> simp [List.filter_cons, hq, hp] <;> omega
    · simp [List.filter_cons, hq, h a hq]
      omega

/-- Filtering with a strictly stronger predicate (failing on a present
element that the weaker one accepts) yields strictly fewer elements. -/
theorem length_filter_lt_of_imp (l : List String) (p q : String → Bool)
    (h : ∀ a, q a = true → p a = true)
    (k : String) (hk : k ∈ l) (hkp : p k = true) (hkq : q k = false) :
    (l.filter q).length < (l.filter p).length := by
  induction l with
  | nil => cases hk
  | cons a l ih =>
    rcases List.mem_cons.mp hk with rfl | hk0
    · have hle := length_filter_le_of_imp l p q h
      simp [List.filter_cons, hkq, hkp]
      omega
    · have hlt := ih hk0
      cases hq : q a
      · cases hp : p a
        · simpa [List.filter_cons, hq, hp] using hlt
        · simp [List.filter_cons, hq, hp]
          omega
      · simp [List.filter_cons, hq, h a hq]
        omega

/-- A successful lookup exhibits a graph member. -/
theorem lookupG_some_mem {g : Graph} {x : String} {e : GraphEntry}
    (h : lookupG g x = some e) : (x, e) ∈ g := by
  simp only [lookupG, Option.map_eq_some'] at h
  obtain ⟨pr, hfind, hsnd⟩ := h
  have h1 : pr.1 = x := by simpa using List.find?_some hfind
  have h2 := List.mem_of_find?_eq_some hfind
  obtain ⟨a, b⟩ := pr
  simp only at h1 hsnd
  subst h1
  subst hsnd
  exact h2

/-- A successful lookup means the key is present. -/
theorem lookupG_some_mem_keys {g : Graph} {x : String} {e : GraphEntry}
    (h : lookupG g x = some e) : x ∈ keysG g :=
  List.mem_map.mpr ⟨(x, e), lookupG_some_mem h, rfl⟩

/-- The DFS result is empty or a dependency chain starting at its start
node. -/
theorem dfsPath_chain (g : Graph) :
    ∀ (fuel : Nat) (node : String) (visited : List String),
      dfsPath g fuel node visited = []
      ∨ ∃ rest, dfsPath g fuel node visited = node :: rest
          ∧ List.Chain' (Edge g) (node :: rest) := by
  intro fuel
  induction fuel with
  | zero => intro node visited; exact Or.inl rfl
  | succ fuel ih =>
    intro node visited
    by_cases hv : node ∈ visited
    · exact Or.inl (by simp [dfsPath, hv])
    cases hlk : lookupG g node with
    | none =>
      refine Or.inr ⟨[], by simp [dfsPath, hv, hlk], List.chain'_singleton _⟩
    | some e =>
      have heq : dfsPath g (fuel + 1) node visited
          = node :: pickLonger []
              (e.dependencies.map (fun dep =>
                if dep ∈ node :: visited then []
                else dfsPath g fuel dep (node :: visited))) := by
        simp [dfsPath, hv, hlk]
      rcases pickLonger_eq_init_or_mem
          (e.dependencies.map (fun dep =>
            if dep ∈ node :: visited then []
            else dfsPath g fuel dep (node :: visited))) [] with hb | hb
      · exact Or.inr ⟨[], by rw [heq, hb], List.chain'_singleton _⟩
      · obtain ⟨dep, hdep, hbe⟩ := List.mem_map.mp hb
        by_cases hdv : dep ∈ node :: visited
        · rw [if_pos hdv] at hbe
          exact Or.inr ⟨[], by rw [heq, ← hbe], List.chain'_singleton _⟩
        · rw [if_neg hdv] at hbe
          rcases ih dep (node :: visited) with hnil | ⟨rest2, hr, hc⟩
          · rw [hnil] at hbe
            exact Or.inr ⟨[], by rw [heq, ← hbe], List.chain'_singleton _⟩
          · rw [hr] at hbe
            refine Or.inr ⟨dep :: rest2, by rw [heq, ← hbe], ?_⟩
            exact List.chain'_cons.mpr ⟨⟨e, hlk, hdep⟩, hc⟩

/-- With positive fuel and an unvisited start node the DFS result is
nonempty. -/
theorem dfsPath_ne_nil (g : Graph) (fuel : Nat) (node : String)
    (visited : List String) (hv : node ∉ visited) :
    dfsPath g (fuel + 1) node visited ≠ [] := by
  cases hlk : lookupG g node with
  | none => simp [dfsPath, hv, hlk]
  | some e => simp [dfsPath, hv, hlk]

/-- Maximality of the DFS: in an acyclic graph, the returned path from
`node` is at least as long as every dependency chain starting at `node`
that stays below the ranks of the visited set. -/
theorem dfsPath_maximal (g : Graph) (rank : String → Nat)
    (hrank : RankOk g rank) :
    ∀ (n : Nat) (c : List String) (node : String) (visited : List String)
      (fuel : Nat),
      List.Chain' (Edge g) (node :: c) →
      (∀ x ∈ visited, rank node < rank x) →
      ((keysG g).filter (fun x => x ∉ visited)).length < fuel →
      rank node < n →
      (node :: c).length ≤ (dfsPath g fuel node visited).length := by
  intro n
  induction n with
  | zero => intro c node visited fuel _ _ _ hn; omega
  | succ n ih =>
    intro c node visited fuel hchain hvis hfuel hn
    have hv : node ∉ visited := fun hmem => lt_irrefl _ (hvis node hmem)
    obtain ⟨fuel, rfl⟩ : ∃ f, fuel = f + 1 := by
      cases fuel with
      | zero => omega
      | succ f => exact ⟨f, rfl⟩
    cases c with
    | nil =>
      have := dfsPath_ne_nil g fuel node visited hv
      have hlen : 1 ≤ (dfsPath g (fuel + 1) node visited).length := by
        cases hd : dfsPath g (fuel + 1) node visited with
        | nil => exact absurd hd this
        | cons a l => simp
      simpa using hlen
    | cons d c =>
      obtain ⟨hedge, hchain2⟩ := List.chain'_cons.mp hchain
      obtain ⟨e, hlk, hdep⟩ := hedge
      have hmem : (node, e) ∈ g := lookupG_some_mem hlk
      have hkmem : node ∈ keysG g := lookupG_some_mem_keys hlk
      have hrd : rank d < rank node := hrank (node, e) hmem d hdep
      have heq : dfsPath g (fuel + 1) node visited
          = node :: pickLonger []
              (e.dependencies.map (fun dep =>
                if dep ∈ node :: visited then []
                else dfsPath g fuel dep (node :: visited))) := by
        simp [dfsPath, hv, hlk]
      rw [heq]
      simp only [List.length_cons, Nat.succ_le_succ_iff]
      have hdv : d ∉ node :: visited := by
        intro hmem2
        rcases List.mem_cons.mp hmem2 with rfl | hmem3
        · exact lt_irrefl _ hrd
        · exact lt_irrefl _ (lt_trans hrd (hvis d hmem3))
      have hcand : dfsPath g fuel d (node :: visited)
          ∈ e.dependencies.map (fun dep =>
              if dep ∈ node :: visited then []
              else dfsPath g fuel dep (node :: visited)) := by
        refine List.mem_map.mpr ⟨d, hdep, ?_⟩
        rw [if_neg hdv]
      have hfuel2 : ((keysG g).filter (fun x => x ∉ node :: visited)).length
          < fuel := by
        have hlt := length_filter_lt_of_imp (keysG g)
          (fun x => decide (x ∉ visited)) (fun x => decide (x ∉ node :: visited))
          (by
            intro a ha
            simp only [decide_eq_true_eq] at ha ⊢
            exact fun hb => ha (List.mem_cons_of_mem _ hb))
          node hkmem (by simpa using hv) (by simp)
        omega
      have hvis2 : ∀ x ∈ node :: visited, rank d < rank x := by
        intro x hx
        rcases List.mem_cons.mp hx with rfl | hx2
        · exact hrd
        · exact lt_trans hrd (hvis x hx2)
      have hrec := ih c d (node :: visited) fuel hchain2 hvis2 hfuel2 (by omega)
      calc (d :: c).length ≤ (dfsPath g fuel d (node :: visited)).length := hrec
    _ ≤ (pickLonger []
          (e.dependencies.map (fun dep =>
            if dep ∈ node :: visited then []
            else dfsPath g fuel dep (node :: visited)))).length :=
        pickLonger_ge_mem _ _ _ hcand

/-- The outer loop of `_find_critical_path` as a selection over the
per-node DFS results. -/
theorem find_critical_path_eq (g : Graph) :
    find_critical_path g
      = pickLonger []
          ((keysG g).map (fun node =>
            dfsPath g ((keysG g).length + 1) node [])) := by
  rw [pickLonger, List.foldl_map]
  rfl

/-- **C5.** For every acyclic task set, the returned critical path is a
valid dependency chain (when the task set is nonempty), and no dependency
chain in the graph contains more tasks than it. -/
theorem claim_C5_critical_path (fs : List Feature)
    (hA : Acyclic (buildGraph fs [])) :
    (∀ c, IsChain (buildGraph fs []) c →
        c.length ≤ (find_critical_path (buildGraph fs [])).length)
    ∧ (buildGraph fs [] ≠ [] →
        IsChain (buildGraph fs []) (find_critical_path (buildGraph fs []))) := by
  obtain ⟨rank, hrank⟩ := hA
  set g := buildGraph fs [] with hg
  constructor
  · rintro c ⟨hne, hhead, hchain⟩
    obtain ⟨h0, c', rfl⟩ : ∃ h0 c', c = h0 :: c' := by
      cases c with
      | nil => exact absurd rfl hne
      | cons a l => exact ⟨a, l, rfl⟩
    have hhead0 : h0 ∈ keysG g := by simpa using hhead
    rw [find_critical_path_eq]
    have hcand : dfsPath g ((keysG g).length + 1) h0 []
        ∈ (keysG g).map (fun node => dfsPath g ((keysG g).length + 1) node []) :=
      List.mem_map.mpr ⟨h0, hhead0, rfl⟩
    refine le_trans ?_ (pickLonger_ge_mem _ _ _ hcand)
    exact dfsPath_maximal g rank hrank (rank h0 + 1) c' h0 [] _
      hchain (by simp) (by simp) (by omega)
  · intro hne
    have hkne : keysG g ≠ [] := by
      cases hgg : g with
      | nil => exact absurd hgg hne
      | cons p rest => simp [hgg]
    obtain ⟨k0, ks, hks⟩ : ∃ k0 ks, keysG g = k0 :: ks := by
      cases hkk : keysG g with
      | nil => exact absurd hkk hkne
      | cons a l => exact ⟨a, l, rfl⟩
    have hpos : 1 ≤ (find_critical_path g).length := by
      rw [find_critical_path_eq]
      have hcand : dfsPath g ((keysG g).length + 1) k0 []
          ∈ (keysG g).map (fun node => dfsPath g ((keysG g).length + 1) node []) :=
        List.mem_map.mpr ⟨k0, by rw [hks]; exact List.mem_cons_self _ _, rfl⟩
      refine le_trans ?_ (pickLonger_ge_mem _ _ _ hcand)
      have := dfsPath_ne_nil g ((keysG g).length) k0 [] (by simp)
      cases hd : dfsPath g ((keysG g).length + 1) k0 [] with
      | nil => exact absurd hd this
      | cons a l => simp
    have hne2 : find_critical_path g ≠ [] := by
      intro h
      rw [h] at hpos
      simp at hpos
    rw [find_critical_path_eq] at hne2 ⊢
    rcases pickLonger_eq_init_or_mem
        ((keysG g).map (fun node => dfsPath g ((keysG g).length + 1) node []))
        [] with hb | hb
    · exact absurd hb hne2
    · obtain ⟨node, hnode, hbe⟩ := List.mem_map.mp hb
      rcases dfsPath_chain g ((keysG g).length + 1) node [] with hnil | ⟨rest, hr, hc⟩
      · rw [← hbe] at hne2
        exact absurd hnil.symm (by simpa using hne2)
      · refine ⟨by simpa using hne2, ?_, ?_⟩
        · rw [← hbe, hr]
          simpa using hnode
        · rw [← hbe, hr]
          exact hc

/-- Witness for C5 on a concrete acyclic three-task set. -/
theorem claim_C5_witness :
    (∀ c, IsChain (buildGraph acyclicSample []) c →
        c.length ≤ (find_critical_path (buildGraph acyclicSample [])).length)
    ∧ (buildGraph acyclicSample [] ≠ [] →
        IsChain (buildGraph acyclicSample [])
          (find_critical_path (buildGraph acyclicSample []))) :=
  claim_C5_critical_path acyclicSample
    ⟨acyclicSampleRank, by unfold RankOk; decide⟩

/-! ## C1: the Kahn leveling. Part 1: the in-degree map -/

/-- Reading a counter map at the head. -/
theorem getInt_cons (p : String × Int) (rest : DegMap) (x : String) :
    getInt (p :: rest) x = if p.1 = x then p.2 else getInt rest x := by
  by_cases h : p.1 = x
  · rw [if_pos h, getInt, List.find?_cons_of_pos _ (by simpa using h)]
    rfl
  · rw [if_neg h, getInt, List.find?_cons_of_neg _ (by simpa using h), getInt]

/-- The effect of `in_degree[k] += d` on every key. -/
theorem getInt_bump (m : DegMap) (k : String) (d : Int) (x : String) :
    getInt (bump m k d) x = if x = k then getInt m k + d else getInt m x := by
  induction m with
  | nil =>
    rw [show bump [] k d = [(k, d)] from rfl, getInt_cons]
    by_cases h : x = k
    · rw [if_pos h.symm, if_pos h, show getInt [] k = 0 from rfl, zero_add]
    · rw [if_neg (fun hh => h hh.symm), if_neg h]
  | cons p rest ih =>
    obtain ⟨k', v⟩ := p
    by_cases h : k' = k
    · rw [show bump ((k', v) :: rest) k d = (k', v + d) :: rest from by
        simp [bump, h]]
      simp only [getInt_cons, if_pos h]
      by_cases h2 : k' = x
      · have hxk : x = k := h2.symm.trans h
        rw [if_pos h2, if_pos hxk]
      · have hxk : ¬ x = k := fun hh => h2 (h.trans hh.symm)
        rw [if_neg h2, if_neg hxk, if_neg h2]
    · rw [show bump ((k', v) :: rest) k d = (k', v) :: bump rest k d from by
        simp [bump, h]]
      simp only [getInt_cons, ih, if_neg h]
      by_cases h2 : k' = x
      · have hxk : ¬ x = k := fun hh => h (h2.trans hh)
        rw [if_pos h2, if_neg hxk, if_pos h2]
      · rw [if_neg h2, if_neg h2]

/-- A decrement lowers the positive-part sum by one exactly when the old
value was positive. -/
theorem posSumNat_bump_dec (m : DegMap) (k : String) :
    posSumNat m
      = posSumNat (bump m k (-1)) + (if 1 ≤ getInt m k then 1 else 0) := by
  induction m with
  | nil =>
    rw [show bump [] k (-1) = [(k, -1)] from rfl]
    simp [posSumNat, getInt]
  | cons p rest ih =>
    obtain ⟨k', v⟩ := p
    by_cases h : k' = k
    · subst h
      rw [show bump ((k', v) :: rest) k' (-1) = (k', v + -1) :: rest from by
        simp [bump]]
      rw [getInt_cons, if_pos rfl]
      simp only [posSumNat, List.map_cons, List.sum_cons]
      by_cases h1 : 1 ≤ v
      · rw [if_pos h1]
        omega
      · rw [if_neg h1]
        omega
    · rw [show bump ((k', v) :: rest) k (-1) = (k', v) :: bump rest k (-1)
        from by simp [bump, h]]
      rw [getInt_cons, if_neg h]
      simp only [posSumNat, List.map_cons, List.sum_cons] at ih ⊢
      omega

/-- The decrement step written as an explicit pair. -/
theorem decrStep_eq (m : DegMap) (acc : List String) (e : String) :
    decrStep (m, acc) e
      = (bump m e (-1),
         if getInt (bump m e (-1)) e = 0 then acc ++ [e] else acc) := by
  by_cases h : getInt (bump m e (-1)) e = 0 <;> simp [decrStep, h]

/-- Folding decrements subtracts one per occurrence. -/
theorem decrFold_getInt (lst : List String) :
    ∀ (m : DegMap) (acc : List String) (x : String),
      getInt (lst.foldl decrStep (m, acc)).1 x
        = getInt m x - lst.count x := by
  induction lst with
  | nil => intro m acc x; simp
  | cons e rest ih =>
    intro m acc x
    rw [List.foldl_cons, decrStep_eq]
    rw [ih, getInt_bump]
    by_cases h : x = e
    · subst h
      rw [if_pos rfl, List.count_cons, if_pos (by simp)]
      push_cast
      omega
    · rw [if_neg h, List.count_cons,
        if_neg (by simpa using fun hh => h hh.symm)]
      omega

/-- A node is enqueued by the decrement fold exactly if it was already
enqueued or its counter crossed zero (positive before, nonpositive
after). -/
theorem decrFold_mem (lst : List String) :
    ∀ (m : DegMap) (acc : List String) (x : String),
      (x ∈ (lst.foldl decrStep (m, acc)).2
        ↔ x ∈ acc
          ∨ (0 < getInt m x ∧ getInt (lst.foldl decrStep (m, acc)).1 x ≤ 0)) := by
  induction lst with
  | nil =>
    intro m acc x
    simp only [List.foldl_nil]
    constructor
    · exact fun h => Or.inl h
    · rintro (h | ⟨h1, h2⟩)
      · exact h
      · omega
  | cons e rest ih =>
    intro m acc x
    rw [List.foldl_cons, decrStep_eq]
    have hbe := getInt_bump m e (-1) e
    rw [if_pos rfl] at hbe
    have hb := getInt_bump m e (-1) x
    by_cases happ : getInt (bump m e (-1)) e = 0
    · rw [if_pos happ, ih, decrFold_getInt, hb]
      by_cases hx : x = e
      · subst hx
        rw [if_pos rfl]
        constructor
        · intro _h
          exact Or.inr ⟨by omega, by omega⟩
        · intro _h
          exact Or.inl (by simp)
      · rw [if_neg hx]
        simp [List.mem_append, List.mem_singleton, hx]
    · rw [if_neg happ, ih, decrFold_getInt, hb]
      by_cases hx : x = e
      · subst hx
        rw [if_pos rfl]
        by_cases hacc : x ∈ acc
        · simp [hacc]
        · simp only [hacc, false_or]
          omega
      · rw [if_neg hx]

/-- The decrement fold keeps the enqueued list duplicate-free, and every
enqueued node has a nonpositive counter afterwards. -/
theorem decrFold_nodup (lst : List String) :
    ∀ (m : DegMap) (acc : List String),
      acc.Nodup → (∀ x ∈ acc, getInt m x ≤ 0) →
      ((lst.foldl decrStep (m, acc)).2.Nodup
        ∧ ∀ x ∈ (lst.foldl decrStep (m, acc)).2,
            getInt (lst.foldl decrStep (m, acc)).1 x ≤ 0) := by
  induction lst with
  | nil =>
    intro m acc h1 h2
    simp only [List.foldl_nil]
    exact ⟨h1, h2⟩
  | cons e rest ih =>
    intro m acc h1 h2
    rw [List.foldl_cons, decrStep_eq]
    have hbe := getInt_bump m e (-1) e
    rw [if_pos rfl] at hbe
    by_cases happ : getInt (bump m e (-1)) e = 0
    · rw [if_pos happ]
      have hen : e ∉ acc := by
        intro hmem
        have := h2 e hmem
        omega
      refine ih _ _ ?_ ?_
      · simp [List.nodup_append, h1, hen]
      · intro x hx
        rcases List.mem_append.mp hx with hx1 | hx1
        · have hxe : ¬ x = e := fun hh => hen (hh ▸ hx1)
          rw [getInt_bump, if_neg hxe]
          exact h2 x hx1
        · have hxe : x = e := by simpa using hx1
          subst hxe
          omega
    · rw [if_neg happ]
      refine ih _ _ h1 ?_
      intro x hx
      rw [getInt_bump]
      by_cases hxe : x = e
      · subst hxe
        have := h2 x hx
        rw [if_pos rfl]
        omega
      · rw [if_neg hxe]
        exact h2 x hx

/-- The decrement fold never increases `enqueued + positive in-degrees`. -/
theorem decrFold_measure (lst : List String) :
    ∀ (m : DegMap) (acc : List String),
      (lst.foldl decrStep (m, acc)).2.length
          + posSumNat (lst.foldl decrStep (m, acc)).1
        ≤ acc.length + posSumNat m := by
  induction lst with
  | nil => intro m acc; simp
  | cons e rest ih =>
    intro m acc
    rw [List.foldl_cons, decrStep_eq]
    have hdec := posSumNat_bump_dec m e
    have hbe := getInt_bump m e (-1) e
    rw [if_pos rfl] at hbe
    by_cases happ : getInt (bump m e (-1)) e = 0
    · rw [if_pos happ]
      have := ih (bump m e (-1)) (acc ++ [e])
      have hlen : (acc ++ [e]).length = acc.length + 1 := by simp
      have hpos : (if 1 ≤ getInt m e then 1 else 0) = 1 := by
        rw [if_pos (by omega)]
      omega
    · rw [if_neg happ]
      have := ih (bump m e (-1)) acc
      have hpos : (if 1 ≤ getInt m e then 1 else 0) ≤ 1 := by
        split <;> omega
      omega

/-- The level-processing loop is the decrement fold over the concatenated
adjacency lists of the frontier. -/
theorem processLevel_eq_flatten (adj : AdjMap) (F : List String) :
    ∀ st : DegMap × List String,
      processLevel adj st F
        = ((F.map (getAdj adj)).flatten).foldl decrStep st := by
  induction F with
  | nil => intro st; rfl
  | cons n F ih =>
    intro st
    show ((n :: F).foldl
        (fun st node => (getAdj adj node).foldl decrStep st) st) = _
    rw [List.foldl_cons]
    rw [show (F.foldl (fun st node => (getAdj adj node).foldl decrStep st)
        ((getAdj adj n).foldl decrStep st))
      = processLevel adj ((getAdj adj n).foldl decrStep st) F from rfl]
    rw [ih, List.map_cons, List.flatten_cons, List.foldl_append]

/-- Occurrences in a flattened map. -/
theorem count_flatten_map (F : List String) (A : String → List String)
    (x : String) :
    ((F.map A).flatten).count x = (F.map (fun n => (A n).count x)).sum := by
  induction F with
  | nil => rfl
  | cons n F ih => simp [List.count_append, ih]

/-! ## C1 part 2: characterizing the built in-degree and adjacency maps -/

/-- The two components of `degStep`. -/
theorem degStep_fst (node : String) (st : DegMap × AdjMap) (dep : String) :
    (degStep node st dep).1 = bump st.1 node 1 := rfl

/-- The adjacency component of `degStep`. -/
theorem degStep_snd (node : String) (st : DegMap × AdjMap) (dep : String) :
    (degStep node st dep).2 = pushAdj st.2 dep node := rfl

/-- Reading an adjacency map at the head. -/
theorem getAdj_cons (p : String × List String) (rest : AdjMap) (x : String) :
    getAdj (p :: rest) x = if p.1 = x then p.2 else getAdj rest x := by
  by_cases h : p.1 = x
  · rw [if_pos h, getAdj, List.find?_cons_of_pos _ (by simpa using h)]
    rfl
  · rw [if_neg h, getAdj, List.find?_cons_of_neg _ (by simpa using h), getAdj]

/-- The effect of `adjacency[k].append(v)` on every key. -/
theorem getAdj_pushAdj (a : AdjMap) (k : String) (v : String) (x : String) :
    getAdj (pushAdj a k v) x
      = if x = k then getAdj a k ++ [v] else getAdj a x := by
  induction a with
  | nil =>
    rw [show pushAdj [] k v = [(k, [v])] from rfl, getAdj_cons]
    by_cases h : x = k
    · rw [if_pos h.symm, if_pos h, show getAdj [] k = [] from rfl,
        List.nil_append]
    · rw [if_neg (fun hh => h hh.symm), if_neg h]
  | cons p rest ih =>
    obtain ⟨k', l⟩ := p
    by_cases h : k' = k
    · rw [show pushAdj ((k', l) :: rest) k v = (k', l ++ [v]) :: rest from by
        simp [pushAdj, h]]
      simp only [getAdj_cons, if_pos h]
      by_cases h2 : k' = x
      · have hxk : x = k := h2.symm.trans h
        rw [if_pos h2, if_pos hxk]
      · have hxk : ¬ x = k := fun hh => h2 (h.trans hh.symm)
        rw [if_neg h2, if_neg hxk, if_neg h2]
    · rw [show pushAdj ((k', l) :: rest) k v = (k', l) :: pushAdj rest k v
        from by simp [pushAdj, h]]
      simp only [getAdj_cons, ih, if_neg h]
      by_cases h2 : k' = x
      · have hxk : ¬ x = k := fun hh => h (h2.trans hh)
        rw [if_pos h2, if_neg hxk, if_pos h2]
      · rw [if_neg h2, if_neg h2]

/-- The in-degree effect of scanning one dependency list. -/
theorem degFold_getInt (deps : List String) (node : String) :
    ∀ (st : DegMap × AdjMap) (x : String),
      getInt (deps.foldl (degStep node) st).1 x
        = getInt st.1 x + (if node = x then (deps.length : Int) else 0) := by
  induction deps with
  | nil =>
    intro st x
    simp
  | cons d0 rest ih =>
    intro st x
    rw [List.foldl_cons, ih, degStep_fst, getInt_bump]
    by_cases h : node = x
    · rw [if_pos h, if_pos h, if_pos h.symm, h]
      simp only [List.length_cons]
      push_cast
      omega
    · rw [if_neg h, if_neg h, if_neg (fun hh => h hh.symm)]

/-- The adjacency effect of scanning one dependency list. -/
theorem degFold_getAdj_count (deps : List String) (node : String) :
    ∀ (st : DegMap × AdjMap) (d x : String),
      ((getAdj (deps.foldl (degStep node) st).2 d)).count x
        = (getAdj st.2 d).count x
          + (if node = x then deps.count d else 0) := by
  induction deps with
  | nil =>
    intro st d x
    simp
  | cons d0 rest ih =>
    intro st d x
    rw [List.foldl_cons, ih, degStep_snd, getAdj_pushAdj]
    by_cases hdd : d = d0
    · subst hdd
      rw [if_pos rfl]
      by_cases h : node = x
      · subst h
        rw [if_pos rfl, if_pos rfl]
        simp only [List.count_append, List.count_cons, List.count_nil,
          beq_self_eq_true, if_pos rfl]
        omega
      · rw [if_neg h, if_neg h]
        have hne : (node == x) = false :=
          beq_eq_false_iff_ne.mpr (fun hh => h hh)
        simp [List.count_append, List.count_cons, hne]
    · rw [if_neg hdd]
      have hne : (d0 == d) = false :=
        beq_eq_false_iff_ne.mpr (fun hh => hdd hh.symm)
      rw [List.count_cons, hne]
      by_cases h : node = x
      · rw [if_pos h, if_pos h]
        simp
      · rw [if_neg h, if_neg h]

/-- Unfolding `degSum` over the head entry. -/
theorem degSum_cons (p : String × GraphEntry) (rest : Graph) (k : String) :
    degSum (p :: rest) k
      = (if p.1 = k then p.2.dependencies.length else 0) + degSum rest k := by
  by_cases h : p.1 = k <;> simp [degSum, List.filter_cons, h]

/-- Unfolding `adjCount` over the head entry. -/
theorem adjCount_cons (p : String × GraphEntry) (rest : Graph)
    (d k : String) :
    adjCount (p :: rest) d k
      = (if p.1 = k then p.2.dependencies.count d else 0)
        + adjCount rest d k := by
  by_cases h : p.1 = k <;> simp [adjCount, List.filter_cons, h]

/-- The in-degree component of the whole scanning loop. -/
theorem buildFold_getInt (g : Graph) :
    ∀ (st : DegMap × AdjMap) (x : String),
      getInt (g.foldl (fun st p => p.2.dependencies.foldl (degStep p.1) st)
        st).1 x
        = getInt st.1 x + (degSum g x : Int) := by
  induction g with
  | nil => intro st x; simp [degSum]
  | cons p rest ih =>
    intro st x
    simp only [List.foldl_cons]
    rw [ih, degFold_getInt, degSum_cons]
    by_cases h : p.1 = x
    · rw [if_pos h, if_pos h]
      push_cast
      omega
    · rw [if_neg h, if_neg h]
      push_cast
      omega

/-- The adjacency component of the whole scanning loop. -/
theorem buildFold_getAdj (g : Graph) :
    ∀ (st : DegMap × AdjMap) (d x : String),
      (getAdj (g.foldl (fun st p => p.2.dependencies.foldl (degStep p.1) st)
        st).2 d).count x
        = (getAdj st.2 d).count x + adjCount g d x := by
  induction g with
  | nil => intro st d x; simp [adjCount]
  | cons p rest ih =>
    intro st d x
    simp only [List.foldl_cons]
    rw [ih, degFold_getAdj_count, adjCount_cons]
    by_cases h : p.1 = x
    · rw [if_pos h]
      omega
    · rw [if_neg h]
      omega

/-- The built in-degree of any key. -/
theorem buildDegAdj_getInt (g : Graph) (x : String) :
    getInt (buildDegAdj g).1 x = (degSum g x : Int) := by
  rw [buildDegAdj, buildFold_getInt]
  simp [getInt]

/-- The built adjacency counts. -/
theorem buildDegAdj_count (g : Graph) (d x : String) :
    (getAdj (buildDegAdj g).2 d).count x = adjCount g d x := by
  rw [buildDegAdj, buildFold_getAdj]
  simp [getAdj]

/-- Keys absent from the graph contribute no in-degree. -/
theorem degSum_eq_zero_of_not_mem {g : Graph} {k : String}
    (h : k ∉ keysG g) : degSum g k = 0 := by
  have hnil : g.filter (fun p => p.1 = k) = [] := by
    rw [List.filter_eq_nil_iff]
    intro p hp
    simp only [decide_eq_true_eq]
    exact fun hh => h (hh ▸ List.mem_map_of_mem Prod.fst hp)
  rw [degSum, hnil]
  rfl

/-- With distinct keys, the built in-degree of a key is the length of its
dependency list. -/
theorem degSum_eq_depsOf {g : Graph} (hnd : (keysG g).Nodup) (k : String) :
    degSum g k = (depsOf g k).length := by
  induction g with
  | nil => rfl
  | cons p rest ih =>
    obtain ⟨k0, e0⟩ := p
    simp only [List.map_cons, List.nodup_cons] at hnd
    rw [degSum_cons]
    by_cases h : k0 = k
    · subst h
      rw [if_pos rfl, degSum_eq_zero_of_not_mem hnd.1]
      rw [depsOf, lookupG_cons_self]
      simp
    · rw [if_neg h]
      have hd : depsOf ((k0, e0) :: rest) k = depsOf rest k := by
        rw [depsOf, depsOf, lookupG_cons_ne e0 rest h]
      rw [hd, ih hnd.2]
      omega

/-- With distinct keys, the adjacency list of `d` holds `k` once per
occurrence of `d` among the dependencies of `k`. -/
theorem adjCount_eq_depsOf {g : Graph} (hnd : (keysG g).Nodup)
    (d k : String) : adjCount g d k = (depsOf g k).count d := by
  induction g with
  | nil => rfl
  | cons p rest ih =>
    obtain ⟨k0, e0⟩ := p
    simp only [List.map_cons, List.nodup_cons] at hnd
    rw [adjCount_cons]
    by_cases h : k0 = k
    · subst h
      have hz : adjCount rest d k0 = 0 := by
        have hnil : rest.filter (fun p => p.1 = k0) = [] := by
          rw [List.filter_eq_nil_iff]
          intro p hp
          simp only [decide_eq_true_eq]
          exact fun hh => hnd.1 (hh ▸ List.mem_map_of_mem Prod.fst hp)
        rw [adjCount, hnil]
        rfl
      rw [if_pos rfl, hz, depsOf, lookupG_cons_self]
      simp
    · rw [if_neg h]
      have hd : depsOf ((k0, e0) :: rest) k = depsOf rest k := by
        rw [depsOf, depsOf, lookupG_cons_ne e0 rest h]
      rw [hd, ih hnd.2]
      omega

/-! ## C1 part 3: remaining-degree bookkeeping -/

/-- With nothing processed, the remaining degree is the full dependency
count. -/
theorem rdeg_nil_eq (g : Graph) (k : String) :
    rdeg g k [] = (depsOf g k).length := by
  simp [rdeg]

/-- Remaining degree zero means every dependency was processed. -/
theorem rdeg_zero_iff (g : Graph) (k : String) (P : List String) :
    rdeg g k P = 0 ↔ ∀ d ∈ depsOf g k, d ∈ P := by
  rw [rdeg, List.length_eq_zero, List.filter_eq_nil_iff]
  constructor
  · intro h d hd
    by_contra hc
    exact h d hd (by simpa using hc)
  · intro h d hd hdec
    have hdP : d ∉ P := by simpa using hdec
    exact hdP (h d hd)

/-- Processing more nodes cannot increase the remaining degree. -/
theorem rdeg_anti (g : Graph) (k : String) {P Q : List String}
    (hPQ : ∀ x ∈ P, x ∈ Q) : rdeg g k Q ≤ rdeg g k P := by
  refine length_filter_le_of_imp _ _ _ ?_
  intro a ha
  simp only [decide_eq_true_eq] at ha ⊢
  exact fun hb => ha (hPQ a hb)

/-- Remaining degree only depends on the membership of the processed
list. -/
theorem rdeg_congr (g : Graph) (k : String) {P Q : List String}
    (h : ∀ x, x ∈ P ↔ x ∈ Q) : rdeg g k P = rdeg g k Q :=
  le_antisymm (rdeg_anti g k (fun x hx => (h x).mpr hx))
    (rdeg_anti g k (fun x hx => (h x).mp hx))

/-- Processing one more (fresh) node removes exactly its occurrences. -/
theorem count_filter_step (l : List String) (P : List String) (n : String)
    (hn : n ∉ P) :
    (l.filter (fun d => d ∉ P)).length
      = (l.filter (fun d => d ∉ P ++ [n])).length + l.count n := by
  induction l with
  | nil => rfl
  | cons a l ih =>
    rw [List.filter_cons, List.filter_cons, List.count_cons]
    by_cases han : a = n
    · rw [if_pos (by simp [han, hn]), if_neg (by simp [han]),
        if_pos (by simp [han])]
      simp only [List.length_cons]
      omega
    · have hbeq : (a == n) = false := beq_eq_false_iff_ne.mpr han
      have h0 : ¬ (false = true) := by simp
      rw [hbeq, if_neg h0]
      by_cases hap : a ∈ P
      · have h1 : ¬ (decide (a ∉ P) = true) := by simpa using hap
        have h2 : ¬ (decide (a ∉ (P ++ [n])) = true) := by
          simp only [decide_eq_true_eq, not_not]
          exact List.mem_append.mpr (Or.inl hap)
        rw [if_neg h1, if_neg h2]
        omega
      · have h1 : decide (a ∉ P) = true := by simpa using hap
        have h2 : decide (a ∉ (P ++ [n])) = true := by
          simp only [decide_eq_true_eq, List.mem_append, List.mem_singleton]
          push_neg
          exact ⟨hap, han⟩
        rw [if_pos h1, if_pos h2]
        simp only [List.length_cons]
        omega

/-- Processing a duplicate-free batch of fresh nodes removes exactly their
occurrences. -/
theorem rdeg_append_count (g : Graph) (k : String) :
    ∀ (F P : List String), F.Nodup → (∀ x ∈ F, x ∉ P) →
      rdeg g k P
        = rdeg g k (P ++ F)
          + (F.map (fun n => (depsOf g k).count n)).sum := by
  intro F
  induction F with
  | nil =>
    intro P _ _
    simp
  | cons n F ih =>
    intro P hnd hdisj
    simp only [List.nodup_cons] at hnd
    have hnP : n ∉ P := hdisj n (List.mem_cons_self _ _)
    have hstep : rdeg g k P = rdeg g k (P ++ [n]) + (depsOf g k).count n :=
      count_filter_step (depsOf g k) P n hnP
    have hdisj2 : ∀ x ∈ F, x ∉ P ++ [n] := by
      intro x hx
      simp only [List.mem_append, List.mem_singleton]
      push_neg
      exact ⟨hdisj x (List.mem_cons_of_mem _ hx),
        fun hh => hnd.1 (hh ▸ hx)⟩
    have hrec := ih (P ++ [n]) hnd.2 hdisj2
    have hcg : rdeg g k ((P ++ [n]) ++ F) = rdeg g k (P ++ n :: F) :=
      rdeg_congr g k (by intro x; simp [List.mem_append, or_assoc])
    rw [hstep, hrec, hcg]
    simp only [List.map_cons, List.sum_cons]
    omega

/-! ## C1 part 4: the loop invariant is preserved round by round -/

/-- One round of the Kahn loop preserves the invariant, and strictly
decreases `frontier + positive in-degrees`. -/
theorem kahn_round (g : Graph) (adj : AdjMap)
    (hadj : ∀ d x, (getAdj adj d).count x = (depsOf g x).count d)
    (P F : List String) (m : DegMap)
    (inv : KahnInv g P F m) (hF : F ≠ []) :
    KahnInv g (P ++ F) (processLevel adj (m, []) F).2
        (processLevel adj (m, []) F).1
    ∧ (processLevel adj (m, []) F).2.length
        + posSumNat (processLevel adj (m, []) F).1 + 1
      ≤ F.length + posSumNat m := by
  rw [processLevel_eq_flatten adj F (m, [])]
  have hndF : F.Nodup := (List.nodup_append.mp inv.nodup).2.1
  have hdisjPF : ∀ x ∈ F, x ∉ P := by
    intro x hx hp
    exact (List.nodup_append.mp inv.nodup).2.2 hp hx
  have hcount : ∀ x, ((F.map (getAdj adj)).flatten).count x
      = (F.map (fun n => (depsOf g x).count n)).sum := by
    intro x
    rw [count_flatten_map]
    congr 1
    exact List.map_congr_left (fun n _ => hadj n x)
  have hkey : ∀ x, rdeg g x P
      = rdeg g x (P ++ F) + ((F.map (getAdj adj)).flatten).count x := by
    intro x
    rw [hcount x]
    exact rdeg_append_count g x F P hndF hdisjPF
  have hget : ∀ x,
      getInt (((F.map (getAdj adj)).flatten).foldl decrStep (m, [])).1 x
        = getInt m x - ((F.map (getAdj adj)).flatten).count x :=
    fun x => decrFold_getInt _ m [] x
  have hmem : ∀ x,
      x ∈ (((F.map (getAdj adj)).flatten).foldl decrStep (m, [])).2
        ↔ (0 < getInt m x
            ∧ getInt (((F.map (getAdj adj)).flatten).foldl decrStep
                (m, [])).1 x ≤ 0) := by
    intro x
    have := decrFold_mem ((F.map (getAdj adj)).flatten) m [] x
    simpa using this
  have hnodup2 := decrFold_nodup ((F.map (getAdj adj)).flatten) m []
    List.nodup_nil (by intro x hx; cases hx)
  have hemitPF : ∀ k ∈ P ++ F, getInt m k = 0 := by
    intro k hk
    have h1 := inv.count_eq k (inv.sub k hk)
    have h2 := inv.emitted k hk
    omega
  have hcount_eq : ∀ k ∈ keysG g,
      getInt (((F.map (getAdj adj)).flatten).foldl decrStep (m, [])).1 k
        = (rdeg g k (P ++ F) : Int) := by
    intro k hk
    rw [hget]
    have h1 := inv.count_eq k hk
    have h2 := hkey k
    omega
  have hsubF : ∀ x ∈ (((F.map (getAdj adj)).flatten).foldl decrStep
      (m, [])).2, x ∈ keysG g := by
    intro x hx
    by_contra hxk
    have h0 := inv.outside x hxk
    have := (hmem x).mp hx
    omega
  have hdisj2 : ∀ x ∈ (((F.map (getAdj adj)).flatten).foldl decrStep
      (m, [])).2, x ∉ P ++ F := by
    intro x hx hmem2
    have h1 := (hmem x).mp hx
    have h2 := hemitPF x hmem2
    omega
  refine ⟨⟨?_, ?_, ?_, ?_, ?_, ?_⟩, ?_⟩
  · exact List.Nodup.append inv.nodup hnodup2.1
      (fun a ha hb => hdisj2 a hb ha)
  · intro k hk
    rcases List.mem_append.mp hk with hk1 | hk1
    · exact inv.sub k hk1
    · exact hsubF k hk1
  · exact hcount_eq
  · intro k hk
    rw [hget]
    have h0 := inv.outside k hk
    have hc : (0 : Int) ≤ (((F.map (getAdj adj)).flatten).count k : Int) := by
      positivity
    omega
  · intro k hk
    rcases List.mem_append.mp hk with hk1 | hk1
    · have h1 := inv.emitted k hk1
      have h2 := rdeg_anti g k (P := P) (Q := P ++ F)
        (fun x hx => List.mem_append.mpr (Or.inl hx))
      omega
    · have h1 := hcount_eq k (hsubF k hk1)
      have h2 := hnodup2.2 k hk1
      omega
  · intro k hk hnk
    have hk1 : k ∉ P ++ F := fun hmem2 =>
      hnk (List.mem_append.mpr (Or.inl hmem2))
    have hk2 : k ∉ (((F.map (getAdj adj)).flatten).foldl decrStep
        (m, [])).2 := fun hmem2 =>
      hnk (List.mem_append.mpr (Or.inr hmem2))
    have h1 := inv.complete k hk hk1
    have h2 := inv.count_eq k hk
    have h3 := hcount_eq k hk
    by_contra h0
    exact hk2 ((hmem k).mpr ⟨by omega, by omega⟩)
  · have := decrFold_measure ((F.map (getAdj adj)).flatten) m []
    have hFlen : 0 < F.length := List.length_pos.mpr hF
    simp only [List.length_nil] at this
    omega

/-- Specification of the fueled Kahn loop: given the invariant and
sufficient fuel, the produced levels are duplicate-free, every dependency
of a level member was emitted earlier, and any key never emitted keeps a
positive remaining degree. -/
theorem kahn_spec (g : Graph) (adj : AdjMap)
    (hadj : ∀ d x, (getAdj adj d).count x = (depsOf g x).count d) :
    ∀ (fuel : Nat) (m : DegMap) (P F : List String),
      KahnInv g P F m →
      F.length + posSumNat m < fuel →
      ((P ++ (kahnFuel adj fuel m F).flatten).Nodup
       ∧ (∀ i t, t ∈ (kahnFuel adj fuel m F).getD i [] →
            ∀ d ∈ depsOf g t,
              d ∈ P ++ ((kahnFuel adj fuel m F).take i).flatten)
       ∧ (∀ k ∈ keysG g, k ∉ P ++ (kahnFuel adj fuel m F).flatten →
            0 < rdeg g k (P ++ (kahnFuel adj fuel m F).flatten))) := by
  intro fuel
  induction fuel with
  | zero =>
    intro m P F _ h
    omega
  | succ fuel ih =>
    intro m P F inv hfuel
    by_cases hF : F = []
    · subst hF
      rw [show kahnFuel adj (fuel + 1) m [] = [] from by simp [kahnFuel]]
      refine ⟨by simpa using inv.nodup, ?_, ?_⟩
      · intro i t ht
        rw [List.getD_nil] at ht
        cases ht
      · intro k hk hnk
        have := inv.complete k hk (by simpa using hnk)
        simpa using this
    · have hround := kahn_round g adj hadj P F m inv hF
      have hrec := ih (processLevel adj (m, []) F).1 (P ++ F)
          (processLevel adj (m, []) F).2 hround.1 (by
            have := hround.2
            omega)
      have heq : kahnFuel adj (fuel + 1) m F
          = F :: kahnFuel adj fuel (processLevel adj (m, []) F).1
              (processLevel adj (m, []) F).2 := by
        simp [kahnFuel, hF]
      rw [heq]
      obtain ⟨hnd, hord, hcomp⟩ := hrec
      refine ⟨?_, ?_, ?_⟩
      · rw [List.flatten_cons, ← List.append_assoc]
        exact hnd
      · intro i t ht d hd
        cases i with
        | zero =>
          rw [List.getD_cons_zero] at ht
          have hrz : rdeg g t P = 0 :=
            inv.emitted t (List.mem_append.mpr (Or.inr ht))
          have hdp := (rdeg_zero_iff g t P).mp hrz d hd
          simpa using hdp
        | succ i =>
          rw [List.getD_cons_succ] at ht
          have := hord i t ht d hd
          rw [List.take_succ_cons, List.flatten_cons, ← List.append_assoc]
          exact this
      · intro k hk hnk
        have h2 : k ∉ (P ++ F)
            ++ (kahnFuel adj fuel (processLevel adj (m, []) F).1
                (processLevel adj (m, []) F).2).flatten := by
          rw [List.append_assoc]
          simpa [List.flatten_cons] using hnk
        have h3 := hcomp k hk h2
        rw [List.flatten_cons, ← List.append_assoc]
        exact h3

/-- A key present in the graph has a successful lookup. -/
theorem lookupG_isSome_of_mem {g : Graph} {k : String}
    (hk : k ∈ keysG g) : ∃ e, lookupG g k = some e := by
  cases hlk : lookupG g k with
  | some e => exact ⟨e, rfl⟩
  | none =>
    exfalso
    have hfind : g.find? (fun p => p.1 = k) = none := by
      rw [lookupG] at hlk
      exact Option.map_eq_none'.mp hlk
    obtain ⟨p, hp, hpk⟩ := List.mem_map.mp hk
    have := List.find?_eq_none.mp hfind p hp
    simp [hpk] at this

/-- Specification of `_topological_sort` on a graph with distinct keys: the
levels are duplicate-free, every dependency of a level member sits in an
earlier level, and any key never assigned a level keeps unprocessed
dependencies. -/
theorem topological_sort_spec (g : Graph) (hnd : (keysG g).Nodup) :
    ((topological_sort g).flatten.Nodup)
    ∧ (∀ i t, t ∈ (topological_sort g).getD i [] →
        ∀ d ∈ depsOf g t, d ∈ ((topological_sort g).take i).flatten)
    ∧ (∀ k ∈ keysG g, k ∉ (topological_sort g).flatten →
        0 < rdeg g k (topological_sort g).flatten) := by
  have hadj : ∀ d x, (getAdj (buildDegAdj g).2 d).count x
      = (depsOf g x).count d := by
    intro d x
    rw [buildDegAdj_count, adjCount_eq_depsOf hnd]
  have hdeg : ∀ k, getInt (buildDegAdj g).1 k = (degSum g k : Int) :=
    buildDegAdj_getInt g
  have hdeg2 : ∀ k ∈ keysG g,
      getInt (buildDegAdj g).1 k = ((depsOf g k).length : Int) := by
    intro k _
    rw [hdeg, degSum_eq_depsOf hnd]
  have inv : KahnInv g []
      ((keysG g).filter (fun k => getInt (buildDegAdj g).1 k = 0))
      (buildDegAdj g).1 := by
    refine ⟨?_, ?_, ?_, ?_, ?_, ?_⟩
    · simpa using List.Nodup.filter _ hnd
    · intro k hk
      have hk2 : k ∈ (keysG g).filter
          (fun k => getInt (buildDegAdj g).1 k = 0) := by simpa using hk
      exact (List.mem_filter.mp hk2).1
    · intro k hk
      rw [hdeg2 k hk, rdeg_nil_eq]
    · intro k hk
      rw [hdeg, degSum_eq_zero_of_not_mem hk]
      simp
    · intro k hk
      have hk2 : k ∈ (keysG g).filter
          (fun k => getInt (buildDegAdj g).1 k = 0) := by simpa using hk
      obtain ⟨hk3, hk4⟩ := List.mem_filter.mp hk2
      have h5 : getInt (buildDegAdj g).1 k = 0 := by simpa using hk4
      have h6 := hdeg2 k hk3
      rw [rdeg_nil_eq]
      omega
    · intro k hk hnk
      have hnk2 : k ∉ (keysG g).filter
          (fun k => getInt (buildDegAdj g).1 k = 0) := by simpa using hnk
      have hne : ¬ getInt (buildDegAdj g).1 k = 0 := by
        intro h0
        exact hnk2 (List.mem_filter.mpr ⟨hk, by simpa using h0⟩)
      have h6 := hdeg2 k hk
      rw [rdeg_nil_eq]
      omega
  have hspec := kahn_spec g (buildDegAdj g).2 hadj
    (((keysG g).filter (fun k => getInt (buildDegAdj g).1 k = 0)).length
      + posSumNat (buildDegAdj g).1 + 1)
    (buildDegAdj g).1 []
    ((keysG g).filter (fun k => getInt (buildDegAdj g).1 k = 0))
    inv (by omega)
  have htop : topological_sort g
      = kahnFuel (buildDegAdj g).2
          (((keysG g).filter
            (fun k => getInt (buildDegAdj g).1 k = 0)).length
            + posSumNat (buildDegAdj g).1 + 1)
          (buildDegAdj g).1
          ((keysG g).filter (fun k => getInt (buildDegAdj g).1 k = 0)) := rfl
  rw [htop]
  obtain ⟨h1, h2, h3⟩ := hspec
  refine ⟨by simpa using h1, ?_, ?_⟩
  · intro i t ht d hd
    have := h2 i t ht d hd
    simpa using this
  · intro k hk hnk
    have := h3 k hk (by simpa using hnk)
    simpa using this

/-- Membership in a flattened prefix locates an earlier level. -/
theorem mem_take_flatten_getD {Ls : List (List String)} {d : String}
    {i : Nat} (h : d ∈ (Ls.take i).flatten) :
    ∃ j, j < i ∧ d ∈ Ls.getD j [] := by
  obtain ⟨L, hL, hdL⟩ := List.mem_flatten.mp h
  obtain ⟨j, hj, rfl⟩ := List.mem_iff_getElem.mp hL
  have hji : j < i := by
    have := hj
    simp only [List.length_take] at this
    omega
  have hjlen : j < Ls.length := by
    have := hj
    simp only [List.length_take] at this
    omega
  refine ⟨j, hji, ?_⟩
  rw [List.getD_eq_getElem Ls [] hjlen]
  rw [List.getElem_take] at hdL
  exact hdL

/-- In a duplicate-free leveling, an element determines its level index. -/
theorem getD_index_unique {Ls : List (List String)}
    (hnd : Ls.flatten.Nodup) {x : String} {i j : Nat}
    (hi : x ∈ Ls.getD i []) (hj : x ∈ Ls.getD j []) : i = j := by
  have hil : i < Ls.length := by
    by_contra h
    rw [List.getD_eq_default _ _ (by omega)] at hi
    cases hi
  have hjl : j < Ls.length := by
    by_contra h
    rw [List.getD_eq_default _ _ (by omega)] at hj
    cases hj
  rw [List.getD_eq_getElem _ _ hil] at hi
  rw [List.getD_eq_getElem _ _ hjl] at hj
  by_contra hne
  have hpw := (List.nodup_flatten.mp hnd).2
  rcases Nat.lt_or_ge i j with hlt | hge
  · exact (List.pairwise_iff_getElem.mp hpw) i j hil hjl hlt hi hj
  · have hlt2 : j < i := by omega
    exact (List.pairwise_iff_getElem.mp hpw) j i hjl hil hlt2 hj hi

/-- **C1.** For every acyclic task set in which every referenced dependency
exists, the leveling assigns every task a level, and the level index of a
task is strictly greater than the level index of each of its
dependencies. -/
theorem claim_C1_level_invariant (fs : List Feature)
    (hC : Closed (buildGraph fs [])) (hA : Acyclic (buildGraph fs [])) :
    (∀ k ∈ keysG (buildGraph fs []),
        ∃ i, i < (topological_sort (buildGraph fs [])).length
          ∧ k ∈ (topological_sort (buildGraph fs [])).getD i [])
    ∧ (∀ i j t d,
        t ∈ (topological_sort (buildGraph fs [])).getD i [] →
        d ∈ depsOf (buildGraph fs []) t →
        d ∈ (topological_sort (buildGraph fs [])).getD j [] →
        j < i) := by
  obtain ⟨rank, hrank⟩ := hA
  have hnd : (keysG (buildGraph fs [])).Nodup :=
    nodup_keysG_buildGraph fs (by simp)
  obtain ⟨hflat_nd, hord, hcomp⟩ := topological_sort_spec (buildGraph fs []) hnd
  have htot : ∀ n k, k ∈ keysG (buildGraph fs []) → rank k < n →
      k ∈ (topological_sort (buildGraph fs [])).flatten := by
    intro n
    induction n with
    | zero => intro k _ h; omega
    | succ n ih =>
      intro k hk hrk
      by_contra hkn
      have hpos := hcomp k hk hkn
      have hex : ∃ d ∈ depsOf (buildGraph fs []) k,
          d ∉ (topological_sort (buildGraph fs [])).flatten := by
        by_contra hcon
        push_neg at hcon
        have h0 : rdeg (buildGraph fs []) k
            (topological_sort (buildGraph fs [])).flatten = 0 :=
          (rdeg_zero_iff _ _ _).mpr hcon
        omega
      obtain ⟨d, hd, hdn⟩ := hex
      obtain ⟨e, he⟩ := lookupG_isSome_of_mem hk
      have hmem : (k, e) ∈ buildGraph fs [] := lookupG_some_mem he
      have hdeps : depsOf (buildGraph fs []) k = e.dependencies := by
        rw [depsOf, he]
        rfl
      have hdk : d ∈ keysG (buildGraph fs []) :=
        hC (k, e) hmem d (hdeps ▸ hd)
      have hrd : rank d < rank k := hrank (k, e) hmem d (hdeps ▸ hd)
      exact hdn (ih d hdk (by omega))
  constructor
  · intro k hk
    have hkfl := htot (rank k + 1) k hk (by omega)
    obtain ⟨L, hL, hkL⟩ := List.mem_flatten.mp hkfl
    obtain ⟨i, hi, rfl⟩ := List.mem_iff_getElem.mp hL
    refine ⟨i, hi, ?_⟩
    rw [List.getD_eq_getElem _ _ hi]
    exact hkL
  · intro i j t d ht hd hdj
    have hdt := hord i t ht d hd
    obtain ⟨j2, hj2i, hj2⟩ := mem_take_flatten_getD hdt
    have : j = j2 := getD_index_unique hflat_nd hdj hj2
    omega

/-- Witness for C1 on a concrete closed acyclic three-task set. -/
theorem claim_C1_witness :
    (∀ k ∈ keysG (buildGraph acyclicSample []),
        ∃ i, i < (topological_sort (buildGraph acyclicSample [])).length
          ∧ k ∈ (topological_sort (buildGraph acyclicSample [])).getD i [])
    ∧ (∀ i j t d,
        t ∈ (topological_sort (buildGraph acyclicSample [])).getD i [] →
        d ∈ depsOf (buildGraph acyclicSample []) t →
        d ∈ (topological_sort (buildGraph acyclicSample [])).getD j [] →
        j < i) :=
  claim_C1_level_invariant acyclicSample
    (by unfold Closed; decide)
    ⟨acyclicSampleRank, by unfold RankOk; decide⟩

/-! ## C2, C3, C4, C7: divergences between the source and the claims -/

/-- **C2 (code evidence).** On the cyclic task set (A depends on B, B on A)
the leveler emits no levels at all: A and B are silently omitted, and
`create_parallel_tracks` still returns a complete result dict (no error
value exists anywhere in the source), contradicting the required
`CycleDetected` error. -/
theorem claim_C2_cycle_evidence :
    topological_sort (buildGraph cycleFeatures []) = []
    ∧ (create_parallel_tracks 1000 cycleFeatures []).1.tracks = []
    ∧ (create_parallel_tracks 1000 cycleFeatures []).1.execution_plan = []
    ∧ (create_parallel_tracks 1000 cycleFeatures []).1.estimated_duration = 0 := by
  refine ⟨?_, ?_, ?_, ?_⟩ <;> with_unfolding_all rfl

/-- **C3 (code evidence).** On a task referencing a nonexistent dependency
id, no validation fires: the task is silently dropped from the levels, a
result is still produced, and the critical path even contains the missing
id, contradicting the required immediate `UnknownDependency` failure. -/
theorem claim_C3_unknown_dep_evidence :
    topological_sort (buildGraph ghostFeatures []) = []
    ∧ (create_parallel_tracks 1000 ghostFeatures []).1.tracks = []
    ∧ (create_parallel_tracks 1000 ghostFeatures []).1.analysis.critical_path
        = ["t", "ghost"] := by
  refine ⟨?_, ?_, ?_⟩ <;> with_unfolding_all rfl

/-- **C4 (code evidence).** With `max_processes = 116` (capacity 16 after
the 100-process reserve) and two single-task tracks, each track receives the
one-team minimum of 16 processes, so the allocated sum 32 exceeds
`max_processes - 100 = 16`: the source never clamps. -/
theorem claim_C4_overcommit_evidence :
    (((create_parallel_tracks 116 overcommitFeatures []).1.resource_allocation.map
        (fun p => p.2.processes)).sum = 32)
    ∧ ((116 : Int) - 100 < 32) := by
  exact ⟨by with_unfolding_all rfl, by decide⟩

/-- **C7 (code evidence).** For two independent effort-5 tasks, the single
parallel track is allocated 56 teams and its execution-plan step lasts
55/56 seconds, but the reported `estimated_duration` is 55 seconds: the
total is recomputed with `teams = 1` (the `self.resource_allocation`
attribute is never populated), so it does not equal the sum of sequential
durations plus the maximum of parallel durations (55/56 here). -/
theorem claim_C7_duration_evidence :
    (create_parallel_tracks 1000 twoParFeatures []).1.estimated_duration = 55
    ∧ ((create_parallel_tracks 1000 twoParFeatures []).1.execution_plan.map
        (fun s => (s.teams, s.duration))) = [(56, 55/56)]
    ∧ seqDurationSum (create_parallel_tracks 1000 twoParFeatures []).1.execution_plan
        + (((create_parallel_tracks 1000 twoParFeatures []).1.execution_plan.filter
              (fun s => s.can_parallel)).map (fun s => s.duration)).foldl max 0
        = 55/56
    ∧ ((55 : ℚ) ≠ 55/56) := by
  refine ⟨by with_unfolding_all rfl, by with_unfolding_all rfl,
    by with_unfolding_all rfl, by norm_num⟩

end SprintPlanner
